import Mathlib

/-!
Shallow embedding of the mini-batch SGD neural-network trainer in
`one-fell-swoop.ipynb`.

A numpy 2-D array is a list of rows (`Mat`); a numpy 3-D array with a
leading batch axis of length `B` is a list of `B` matrices (`Batch`).
Arithmetic is exact real arithmetic.  Each Python function is translated
to a Lean definition of the same name; the local variables of
`batch_backprop` (`zs`, `activations`, `delta`, the list of deltas built
by the backward loop) are given their own named definitions (`bbZs`,
`bbActs`, `bbDelta`, `bbDeltas`) so that theorems can speak about them.
The Python backward loop `for i in range(2, nn.num_layers)` indexes the
gradient lists from the end (`nabla_b[-i]`); for a network satisfying the
representation invariant `num_layers = len(weights) + 1` (established by
`init_network` and preserved by every update) the loop fills every
position of those lists, walking the list structure backward, which is
embedded here as a structural recursion over the reversed lists followed
by a final `reverse`.

Fallible code is embedded with `Except`.  The first statement of
`batch_backprop`, the unpacking
`ax, ay = tuple(t for t in np.asarray(mini_batch).transpose())`, raises
`ValueError` whenever all the stacked input and target arrays share one
numpy shape, in particular whenever `sizes[0] = sizes[L-1]` (see
`unpackRaises`); that exception propagates through
`batch_stochastic_gradient_descent` (before any parameter is written) and
out of `learn`, each error result carrying the state at the raise.
-/

namespace SNN

noncomputable section

/-- A numpy 2-D array: a list of rows. -/
abbrev Mat := List (List ℝ)

/-- A numpy 3-D array of shape `(B, m, n)`: a list of `B` matrices. -/
abbrev Batch := List Mat

/-- Transpose of a 2-D array (`A.transpose()`): entry `(j, i)` of the
result is entry `(i, j)` of `A`. -/
def transposeM (A : Mat) : Mat :=
  (List.range (A.headD []).length).map (fun j => A.map (fun r => r.getD j 0))

/-- Dot product of two equally long rows. -/
def dotL (xs ys : List ℝ) : ℝ := (List.zipWith (fun a b => a * b) xs ys).sum

/-- Matrix product of 2-D arrays (`np.dot` / `np.matmul` on 2-D operands). -/
def matMul (A B : Mat) : Mat := A.map (fun r => (transposeM B).map (fun c => dotL r c))

/-- Elementwise sum of two 2-D arrays of equal shape. -/
def matAdd (A B : Mat) : Mat := List.zipWith (List.zipWith (fun a b => a + b)) A B

/-- Elementwise difference of two 2-D arrays of equal shape. -/
def matSub (A B : Mat) : Mat := List.zipWith (List.zipWith (fun a b => a - b)) A B

/-- Elementwise (Hadamard) product of two 2-D arrays of equal shape. -/
def hadamard (A B : Mat) : Mat := List.zipWith (List.zipWith (fun a b => a * b)) A B

/-- Elementwise application of a scalar function to a 2-D array. -/
def matMap (f : ℝ → ℝ) (A : Mat) : Mat := A.map (fun r => r.map f)

/-- Scalar multiple of a 2-D array. -/
def matScale (c : ℝ) (A : Mat) : Mat := A.map (fun r => r.map (fun a => c * a))

/-- Sum of a stack of matrices over the batch axis (`.sum(axis = 0)`),
for the non-empty stacks produced from a non-empty mini-batch. -/
def sumBatch (x : Batch) : Mat :=
  match x with
  | [] => []
  | m :: rest => rest.foldl matAdd m

/-- Source `sigmoid`: `1.0 / (1.0 + np.exp(-z))`, scalar form of the
elementwise numpy operation. -/
def sigmoid (z : ℝ) : ℝ := 1 / (1 + Real.exp (-z))

/-- Source `sigmoid_prime`: `sigmoid(z) * (1 - sigmoid(z))`. -/
def sigmoid_prime (z : ℝ) : ℝ := sigmoid z * (1 - sigmoid z)

/-- Source `cost_derivative`: `output_activations - y`, on one 2-D array. -/
def cost_derivative (output_activations y : Mat) : Mat := matSub output_activations y

/-- Source dataclass `Network`. -/
structure Network where
  num_layers : ℕ
  biases : List Mat
  weights : List Mat

/-- The value of one call `np.random.randn(y, x)`: a matrix of shape
`(y, x)` whose entries are drawn from the generator, modelled as an
arbitrary entry function `g`. -/
def randnMat (g : ℕ → ℕ → ℝ) (y x : ℕ) : Mat :=
  (List.range y).map (fun i => (List.range x).map (fun j => g i j))

/-- Source `init_network`: biases `[randn(y, 1) for y in layers[1:]]` and
weights `[randn(y, x) for x, y in zip(layers[:-1], layers[1:])]`, with the
successive draws of the global generator modelled by the indexed entry
functions `gb` and `gw`. -/
def init_network (layers : List ℕ) (gb gw : ℕ → ℕ → ℕ → ℝ) : Network :=
  { num_layers := layers.length
    biases := (layers.drop 1).enum.map (fun p => randnMat (gb p.1) p.2 1)
    weights := (List.zip (layers.dropLast) (layers.drop 1)).enum.map
      (fun p => randnMat (gw p.1) p.2.2 p.2.1) }

/-- Source `feedforward`: `for b, w in zip(nn.biases, nn.weights): a =
sigmoid(np.dot(w, a) + b)`. -/
def feedforward (nn : Network) (a : Mat) : Mat :=
  (List.zip nn.biases nn.weights).foldl
    (fun acc bw => matMap sigmoid (matAdd (matMul bw.2 acc) bw.1)) a

/-- Scanner underlying `np.argmax`: current best index, current best
value, index of the next element, remaining elements; a later element
replaces the best only when strictly greater. -/
def argmaxGo (bi : ℕ) (bv : ℝ) (i : ℕ) : List ℝ → ℕ
  | [] => bi
  | v :: vs => if bv < v then argmaxGo i v (i + 1) vs else argmaxGo bi bv (i + 1) vs

/-- Value of `np.argmax` on the flattened entry list of an array: index of
the first occurrence of the maximum. -/
def np_argmax (l : List ℝ) : ℕ :=
  match l with
  | [] => 0
  | v :: vs => argmaxGo 0 v 1 vs

/-- Source `evaluate`: pair `np.argmax(feedforward(nn, x))` with the label
`y` for every sample and sum `int(x == y)`.  A feedforward output of shape
`(n, 1)` is flattened by `np.argmax`, hence the `.flatten`. -/
def evaluate (nn : Network) (test_data : List (Mat × ℕ)) : ℕ :=
  ((test_data.map (fun xy => (np_argmax (feedforward nn xy.1).flatten, xy.2))).map
    (fun r => if r.1 = r.2 then 1 else 0)).sum

/-- Python `range(0, n, m)` for a positive step `m`: the multiples of `m`
below `n`. -/
def pyRange0 (n m : ℕ) : List ℕ := List.range' 0 ((n + m - 1) / m) m

/-- The mini-batch list built by `learn`:
`[training_data[k: k + mini_batch_size] for k in range(0, n, mini_batch_size)]`. -/
def miniBatches {S : Type} (data : List S) (m : ℕ) : List (List S) :=
  (pyRange0 data.length m).map (fun k => (data.drop k).take m)

/-- The forward pass of `batch_backprop`: walking `zip(biases, weights)`,
it returns the stacked pre-activations `zs` and the stacked activations of
every non-input layer, each as a list over the layers where every entry is
a list over the batch. -/
def forwardPass (bs ws : List Mat) (x : Batch) : List Batch × List Batch :=
  match bs, ws with
  | b :: bs, w :: ws =>
      let z := x.map (fun a => matAdd (matMul w a) b)
      let act := z.map (matMap sigmoid)
      let r := forwardPass bs ws act
      (z :: r.1, act :: r.2)
  | _, _ => ([], [])

/-- The backward loop of `batch_backprop`: from the output-layer `delta`,
each iteration consumes the next weight matrix above the current layer and
the current layer's stacked pre-activation `z` (the pairs
`(nn.weights[-i + 1], zs[-i])` in source order) and produces
`np.matmul(w.transpose(), delta) * sigmoid_prime(z)`; the returned list
holds the deltas from the output layer backward. -/
def backDeltas (wzs : List (Mat × Batch)) (delta : Batch) : List Batch :=
  match wzs with
  | [] => [delta]
  | (w, z) :: rest =>
      delta :: backDeltas rest
        (List.zipWith (fun d s => hadamard (matMul (transposeM w) d) s)
          delta (z.map (matMap sigmoid_prime)))

/-- The numpy shape of a 2-D array: its row count and the length of each
row (`(n, 1)` for the data model's column vectors). -/
def matDims (A : Mat) : ℕ × List ℕ := (A.length, A.map List.length)

/-- The shapes of all `2 B` arrays a mini-batch stacks, sample by sample:
input shape then target shape. -/
def mbDims (mini_batch : List (Mat × Mat)) : List (ℕ × List ℕ) :=
  (mini_batch.map (fun p => [matDims p.1, matDims p.2])).flatten

/-- Whether the source's mini-batch unpacking
`ax, ay = tuple(t for t in np.asarray(mini_batch).transpose())` raises.
When every stacked array shares one shape, in particular whenever the
input and target lengths coincide (`sizes[0] = sizes[L-1]`),
`np.asarray` builds a regular `(B, 2, n, 1)` array, the no-argument
`transpose()` reverses all axes to `(1, n, 2, B)`, iterating yields a
single item and the two-variable unpack raises `ValueError`; for the
empty mini-batch it yields no item at all, raising too.  With differing
input and target shapes numpy builds a `(B, 2)` object array instead,
whose transpose unpacks into the row of inputs and the row of targets. -/
def unpackRaises (mini_batch : List (Mat × Mat)) : Bool :=
  (mbDims mini_batch).all (fun s => s == (mbDims mini_batch).headD (0, []))

/-- Local `zs` of `batch_backprop` once the unpack has succeeded, so the
input stack `x` is `mini_batch` mapped to its first components. -/
def bbZs (nn : Network) (mini_batch : List (Mat × Mat)) : List Batch :=
  (forwardPass nn.biases nn.weights (mini_batch.map Prod.fst)).1

/-- Local `activations` of `batch_backprop` on the same success path,
the input stack included. -/
def bbActs (nn : Network) (mini_batch : List (Mat × Mat)) : List Batch :=
  mini_batch.map Prod.fst :: (forwardPass nn.biases nn.weights (mini_batch.map Prod.fst)).2

/-- Local `delta` of `batch_backprop` before the backward loop, on the
success path where `y` is the stack of second components:
`cost_derivative(activations[-1], y) * sigmoid_prime(zs[-1])`, batched. -/
def bbDelta (nn : Network) (mini_batch : List (Mat × Mat)) : Batch :=
  List.zipWith hadamard
    (List.zipWith cost_derivative ((bbActs nn mini_batch).getLastD []) (mini_batch.map Prod.snd))
    (((bbZs nn mini_batch).getLastD []).map (matMap sigmoid_prime))

/-- All deltas of `batch_backprop`, from the output layer backward. -/
def bbDeltas (nn : Network) (mini_batch : List (Mat × Mat)) : List Batch :=
  backDeltas (List.zip nn.weights.reverse (bbZs nn mini_batch).reverse.tail)
    (bbDelta nn mini_batch)

/-- The gradient pair `batch_backprop` computes once its unpack has
succeeded: the bias gradient of each layer is its delta summed over the
batch axis, the weight gradient is the batch sum of
`np.matmul(delta, activations[prev].transpose(0, 2, 1))`; the backward
loop fills the gradient lists from the end, embedded by building the
backward-ordered lists and reversing them. -/
def bbGradients (nn : Network) (mini_batch : List (Mat × Mat)) : List Mat × List Mat :=
  (((bbDeltas nn mini_batch).map sumBatch).reverse,
   (List.zipWith
      (fun d a => sumBatch (List.zipWith (fun di ai => matMul di (transposeM ai)) d a))
      (bbDeltas nn mini_batch) (bbActs nn mini_batch).reverse.tail).reverse)

/-- Source `batch_backprop`: the unpack
`ax, ay = tuple(t for t in np.asarray(mini_batch).transpose())` raises
`ValueError` whenever all the stacked arrays share one shape (see
`unpackRaises`); otherwise the batched forward and backward passes
produce the batch-summed gradients. -/
def batch_backprop (nn : Network) (mini_batch : List (Mat × Mat)) :
    Except String (List Mat × List Mat) :=
  if unpackRaises mini_batch then
    .error "not enough values to unpack (expected 2, got 1)"
  else
    .ok (bbGradients nn mini_batch)

/-- Source `batch_stochastic_gradient_descent`:
`w - (eta / len(mini_batch)) * nw` and `b - (eta / len(mini_batch)) * nb`
with `(nabla_b, nabla_w) = batch_backprop(nn, mini_batch)`; an exception
raised by `batch_backprop` propagates before any parameter is written,
so the error case carries no updated network. -/
def batch_stochastic_gradient_descent (nn : Network) (mini_batch : List (Mat × Mat))
    (eta : ℝ) : Except String Network :=
  match batch_backprop nn mini_batch with
  | .error e => .error e
  | .ok nabla =>
      .ok { num_layers := nn.num_layers
            weights := List.zipWith
              (fun w nw => matSub w (matScale (eta / (mini_batch.length : ℝ)) nw))
              nn.weights nabla.2
            biases := List.zipWith
              (fun b nb => matSub b (matScale (eta / (mini_batch.length : ℝ)) nb))
              nn.biases nabla.1 }

/-- One training sample: a pair of an input column and a target column. -/
abbrev Sample := Mat × Mat

/-- The mini-batch loop of one epoch of `learn`:
`batch_stochastic_gradient_descent` on each mini-batch in order; an
exception propagates with the network as updated by the earlier
mini-batches of the epoch. -/
def runBatches (eta : ℝ) : Network → List (List Sample) →
    Except (String × Network) Network
  | nn, [] => .ok nn
  | nn, mb :: rest =>
      match batch_stochastic_gradient_descent nn mb eta with
      | .error e => .error (e, nn)
      | .ok nn2 => runBatches eta nn2 rest

/-- The epoch recursion of `learn`.  Python `random.shuffle` permutes
`training_data` in place at the start of epoch `j`, modelled by the oracle
`shuffle j`; `range(0, n, 0)` raises `ValueError`, modelled by an `error`
result that carries the state (network and training list) at the raise;
otherwise the epoch runs `batch_stochastic_gradient_descent` over the
mini-batches (an exception from a mini-batch propagating with the state
at the raise) and recursion continues with the shuffled list. -/
def learnGo (mini_batch_size : ℕ) (eta : ℝ) (shuffle : ℕ → List Sample → List Sample) :
    ℕ → ℕ → Network → List Sample →
      Except (String × Network × List Sample) (Network × List Sample)
  | _, 0, nn, data => .ok (nn, data)
  | j, e + 1, nn, data =>
      let data' := shuffle j data
      if mini_batch_size = 0 then
        .error ("range() arg 3 must not be zero", nn, data')
      else
        match runBatches eta nn (miniBatches data' mini_batch_size) with
        | .error p => .error (p.1, p.2, data')
        | .ok nn2 => learnGo mini_batch_size eta shuffle (j + 1) e nn2 data'

/-- Source `learn` (the per-epoch progress printing is an observational
side channel and is not part of the state). -/
def learn (nn : Network) (training_data : List Sample) (epochs mini_batch_size : ℕ)
    (eta : ℝ) (shuffle : ℕ → List Sample → List Sample) :
    Except (String × Network × List Sample) (Network × List Sample) :=
  learnGo mini_batch_size eta shuffle 0 epochs nn training_data

/-- A 2-D array has shape `(r, c)`. -/
def matShape (A : Mat) (r c : ℕ) : Prop := A.length = r ∧ ∀ row ∈ A, row.length = c

/-- A stack of `B` matrices, all of shape `(r, c)`. -/
def batchShape (x : Batch) (B r c : ℕ) : Prop := x.length = B ∧ ∀ m ∈ x, matShape m r c

/-- The parameter-store shape invariant of the data model: `L - 1` bias
vectors and weight matrices, the ones of transition `i` of shapes
`(sizes[i+1], 1)` and `(sizes[i+1], sizes[i])`. -/
def ShapedIdx (sizes : List ℕ) (nn : Network) : Prop :=
  nn.biases.length = sizes.length - 1 ∧ nn.weights.length = sizes.length - 1 ∧
  ∀ i, i + 1 < sizes.length →
    matShape (nn.biases.getD i []) (sizes.getD (i + 1) 0) 1 ∧
    matShape (nn.weights.getD i []) (sizes.getD (i + 1) 0) (sizes.getD i 0)

/-- Spec formula for the forward recurrence, used to state C3: `a_0` is
the input and `a_(i+1) = sigmoid(W_i a_i + b_i)`. -/
def iterLayers (bs ws : List Mat) (a : Mat) : ℕ → Mat
  | 0 => a
  | i + 1 => matMap sigmoid (matAdd (matMul (ws.getD i []) (iterLayers bs ws a i)) (bs.getD i []))

/-- Forward pass of the unbatched reference backprop, on one sample. -/
def forwardPassS (bs ws : List Mat) (a : Mat) : List Mat × List Mat :=
  match bs, ws with
  | b :: bs, w :: ws =>
      let z := matAdd (matMul w a) b
      let act := matMap sigmoid z
      let r := forwardPassS bs ws act
      (z :: r.1, act :: r.2)
  | _, _ => ([], [])

/-- Backward loop of the unbatched reference backprop. -/
def backDeltasS (wzs : List (Mat × Mat)) (delta : Mat) : List Mat :=
  match wzs with
  | [] => [delta]
  | (w, z) :: rest =>
      delta :: backDeltasS rest (hadamard (matMul (transposeM w) delta) (matMap sigmoid_prime z))

/-- Modelled from the spec: the loop-based per-sample reference
backpropagation that section 8 of the spec cross-checks `batch_backprop`
against; the repository contains no unbatched implementation, so this
follows the spec's per-sample equations (output delta
`(a_L - y) * sigmoid_prime(z_L)`, back-propagated deltas
`(W^T delta) * sigmoid_prime(z)`, bias gradient the delta itself, weight
gradient `delta . a_prev^T`). -/
def backprop (nn : Network) (x y : Mat) : List Mat × List Mat :=
  ((backDeltasS
      (List.zip nn.weights.reverse (forwardPassS nn.biases nn.weights x).1.reverse.tail)
      (hadamard
        (cost_derivative ((x :: (forwardPassS nn.biases nn.weights x).2).getLastD []) y)
        (matMap sigmoid_prime ((forwardPassS nn.biases nn.weights x).1.getLastD [])))).reverse,
   (List.zipWith (fun d a => matMul d (transposeM a))
      (backDeltasS
        (List.zip nn.weights.reverse (forwardPassS nn.biases nn.weights x).1.reverse.tail)
        (hadamard
          (cost_derivative ((x :: (forwardPassS nn.biases nn.weights x).2).getLastD []) y)
          (matMap sigmoid_prime ((forwardPassS nn.biases nn.weights x).1.getLastD []))))
      (x :: (forwardPassS nn.biases nn.weights x).2).reverse.tail).reverse)

/-- Spec notion for C7: `k` is the position of the maximum entry of `l`,
ties broken by the lowest index. -/
def isArgmaxLow (l : List ℝ) (k : ℕ) : Prop :=
  k < l.length ∧ (∀ j, j < l.length → l.getD j 0 ≤ l.getD k 0) ∧
    ∀ j, j < k → l.getD j 0 < l.getD k 0

/-! Helper lemmas. -/

theorem miniBatches_nil {S : Type} (m : ℕ) : miniBatches ([] : List S) m = [] := by
  unfold miniBatches pyRange0
  rcases Nat.eq_zero_or_pos m with h | h
  · simp [h]
  · have : (List.length ([] : List S) + m - 1) / m = 0 := by
      simp only [List.length_nil, Nat.zero_add]
      exact Nat.div_eq_of_lt (by omega)
    rw [this]
    simp

theorem ceil_div_step (n m : ℕ) (hm : 0 < m) (hn : 0 < n) :
    (n + m - 1) / m = (n - m + m - 1) / m + 1 := by
  rcases le_or_lt n m with h1 | h1
  · have e1 : n + m - 1 = (n - 1) + m := by omega
    have e2 : n - m = 0 := by omega
    rw [e1, Nat.add_div_right _ hm, e2]
    have h3 : (n - 1) / m = 0 := Nat.div_eq_of_lt (by omega)
    have h0 : (0 + m - 1) / m = 0 := Nat.div_eq_of_lt (by omega)
    rw [h3, h0]
  · have e1 : n + m - 1 = (n - m + m - 1) + m := by omega
    rw [e1, Nat.add_div_right _ hm]

theorem miniBatches_cons {S : Type} (data : List S) (m : ℕ) (hm : 0 < m) (hd : data ≠ []) :
    miniBatches data m = data.take m :: miniBatches (data.drop m) m := by
  have hn : 0 < data.length := List.length_pos.mpr hd
  unfold miniBatches pyRange0
  rw [ceil_div_step data.length m hm hn, List.range'_succ]
  simp only [List.map_cons, List.drop_zero, List.length_drop, Nat.zero_add]
  congr 1
  have hr : List.range' m ((data.length - m + m - 1) / m) m =
      (List.range' 0 ((data.length - m + m - 1) / m) m).map (fun x => m + x) := by
    have := (List.map_add_range' m 0 ((data.length - m + m - 1) / m) m).symm
    rwa [Nat.add_zero] at this
  rw [hr, List.map_map]
  apply List.map_congr_left
  intro k _
  simp only [Function.comp_apply]
  rw [List.drop_drop]

theorem miniBatches_length_le {S : Type} (data : List S) (m : ℕ) (hm : 0 < m)
    (hd : data ≠ []) (hle : data.length ≤ m) : miniBatches data m = [data] := by
  rw [miniBatches_cons data m hm hd, List.take_of_length_le hle,
    List.drop_eq_nil_of_le hle, miniBatches_nil]

theorem miniBatches_flatten {S : Type} (m : ℕ) (hm : 0 < m) :
    ∀ (n : ℕ) (data : List S), data.length ≤ n → (miniBatches data m).flatten = data := by
  intro n
  induction n with
  | zero =>
      intro data h
      have : data = [] := List.length_eq_zero.mp (Nat.le_zero.mp h)
      rw [this, miniBatches_nil]
      rfl
  | succ k ih =>
      intro data h
      rcases eq_or_ne data [] with hd | hd
      · rw [hd, miniBatches_nil]; rfl
      · rw [miniBatches_cons data m hm hd]
        simp only [List.flatten_cons]
        rw [ih (data.drop m) (by simp; omega), List.take_append_drop]

theorem miniBatches_dropLast {S : Type} (m : ℕ) (hm : 0 < m) :
    ∀ (n : ℕ) (data : List S), data.length ≤ n →
      ∀ b ∈ (miniBatches data m).dropLast, b.length = m := by
  intro n
  induction n with
  | zero =>
      intro data h
      have : data = [] := List.length_eq_zero.mp (Nat.le_zero.mp h)
      rw [this, miniBatches_nil]
      intro b hb
      simp at hb
  | succ k ih =>
      intro data h b hb
      rcases eq_or_ne data [] with hd | hd
      · rw [hd, miniBatches_nil] at hb; simp at hb
      · rw [miniBatches_cons data m hm hd] at hb
        rcases eq_or_ne (data.drop m) [] with hdrop | hdrop
        · rw [hdrop, miniBatches_nil] at hb
          simp at hb
        · have hne : miniBatches (data.drop m) m ≠ [] := by
            rw [miniBatches_cons (data.drop m) m hm hdrop]
            exact List.cons_ne_nil _ _
          rw [List.dropLast_cons_of_ne_nil hne] at hb
          rcases List.mem_cons.mp hb with hb1 | hb2
          · subst hb1
            have hlt : m < data.length := by
              by_contra hc
              exact hdrop (List.drop_eq_nil_of_le (by omega))
            simp [List.length_take, Nat.min_eq_left (Nat.le_of_lt hlt)]
          · exact ih (data.drop m) (by simp; omega) b hb2

theorem getLastD_ne_nil {S : Type} (l : List S) (a b : S) (h : l ≠ []) :
    l.getLastD a = l.getLastD b := by
  rw [List.getLastD_eq_getLast?, List.getLastD_eq_getLast?, List.getLast?_eq_getLast l h]
  rfl

theorem miniBatches_last {S : Type} (m : ℕ) (hm : 0 < m) :
    ∀ (n : ℕ) (data : List S), data.length ≤ n → data.length % m ≠ 0 →
      ((miniBatches data m).getLastD []).length = data.length % m := by
  intro n
  induction n with
  | zero =>
      intro data h hmod
      have hz : data = [] := List.length_eq_zero.mp (Nat.le_zero.mp h)
      rw [hz] at hmod
      simp at hmod
  | succ k ih =>
      intro data h hmod
      rcases eq_or_ne data [] with hd | hd
      · rw [hd] at hmod; simp at hmod
      · rw [miniBatches_cons data m hm hd]
        rcases eq_or_ne (data.drop m) [] with hdrop | hdrop
        · rw [hdrop, miniBatches_nil]
          have hle : data.length ≤ m := by
            by_contra hc
            have : data.drop m ≠ [] := by
              intro he
              have := List.length_drop m data ▸ congrArg List.length he
              simp at this
              omega
            exact this hdrop
          have hlt : data.length < m := by
            rcases Nat.lt_or_ge data.length m with h1 | h1
            · exact h1
            · have : data.length = m := by omega
              rw [this] at hmod
              simp at hmod
          have h1 : ([data.take m] : List (List S)).getLastD [] = data.take m := rfl
          rw [h1, List.take_of_length_le hle, Nat.mod_eq_of_lt hlt]
        · have hne : miniBatches (data.drop m) m ≠ [] := by
            rw [miniBatches_cons (data.drop m) m hm hdrop]
            exact List.cons_ne_nil _ _
          have hcons : ∀ (x : List S) (xs : List (List S)), xs ≠ [] →
              (x :: xs).getLastD [] = xs.getLastD [] := by
            intro x xs hxs
            simp only [List.getLastD_cons]
            exact getLastD_ne_nil xs x [] hxs
          rw [hcons _ _ hne]
          have hlt : m < data.length := by
            by_contra hc
            exact hdrop (List.drop_eq_nil_of_le (by omega))
          have hmod2 : (data.drop m).length % m ≠ 0 := by
            simp only [List.length_drop]
            intro hc
            apply hmod
            conv_lhs => rw [show data.length = (data.length - m) + m by omega]
            rw [Nat.add_mod_right]
            exact hc
          rw [ih (data.drop m) (by simp; omega) hmod2]
          simp only [List.length_drop]
          conv_rhs => rw [show data.length = (data.length - m) + m by omega]
          rw [Nat.add_mod_right]

/-- C5 (corrected; the original claim fails for an empty training set,
where an epoch produces zero mini-batches rather than one): for every
positive mini-batch size `m`, the mini-batch list that each epoch of
`learn` builds from the shuffled training data is a partition of it into
the contiguous slices `[0:m]`, `[m:2m]`, ... in order; every batch except
possibly the last has exactly `m` samples; the last batch has
`n % m` samples whenever `n % m` is nonzero; and for a NON-EMPTY training
set with `m ≥ n` there is exactly one batch holding the whole set. -/
theorem miniBatches_partition {S : Type} (data : List S) (m : ℕ) (hm : 0 < m) :
    (miniBatches data m).flatten = data ∧
    (∀ b ∈ (miniBatches data m).dropLast, b.length = m) ∧
    (data.length % m ≠ 0 → ((miniBatches data m).getLastD []).length = data.length % m) ∧
    (data ≠ [] → data.length ≤ m → miniBatches data m = [data]) :=
  ⟨miniBatches_flatten m hm data.length data le_rfl,
   miniBatches_dropLast m hm data.length data le_rfl,
   fun hmod => miniBatches_last m hm data.length data le_rfl hmod,
   fun hd hle => miniBatches_length_le data m hm hd hle⟩

/-- Witness for C5 on a concrete five-element training list with
mini-batch size two. -/
theorem miniBatches_partition_witness :
    (miniBatches [1, 2, 3, 4, 5] 2).flatten = [1, 2, 3, 4, 5] ∧
    (∀ b ∈ (miniBatches [1, 2, 3, 4, 5] 2).dropLast, b.length = 2) ∧
    ([1, 2, 3, 4, 5].length % 2 ≠ 0 →
      ((miniBatches [1, 2, 3, 4, 5] 2).getLastD []).length = [1, 2, 3, 4, 5].length % 2) ∧
    ([1, 2, 3, 4, 5] ≠ [] → [1, 2, 3, 4, 5].length ≤ 2 →
      miniBatches [1, 2, 3, 4, 5] 2 = [[1, 2, 3, 4, 5]]) :=
  miniBatches_partition [1, 2, 3, 4, 5] 2 (by decide)

/-- Counterexample for C5 as stated: for the empty training set and
mini-batch size `1 ≥ 0` the epoch partition has zero batches, not exactly
one batch containing the whole training set. -/
theorem miniBatches_empty_counterexample :
    miniBatches ([] : List ℕ) 1 = [] ∧ (miniBatches ([] : List ℕ) 1).length ≠ 1 := by
  decide

/-- C6: with mini-batch size zero, `learn` raises the `range` error at the
start of the first epoch, after the in-place shuffle but before any
mini-batch update, so the returned error state carries the untouched
network; in particular the division `eta / len(mini_batch)` of the update
rule is never reached. -/
theorem learn_zero_batch_fails (nn : Network) (data : List Sample) (epochs : ℕ) (eta : ℝ)
    (shuffle : ℕ → List Sample → List Sample) (he : 0 < epochs) (hd : data ≠ []) :
    learn nn data epochs 0 eta shuffle =
      Except.error ("range() arg 3 must not be zero", nn, shuffle 0 data) := by
  obtain ⟨e, rfl⟩ : ∃ e, epochs = e + 1 := ⟨epochs - 1, by omega⟩
  rfl

/-- Witness for C6 at a one-sample training set and one epoch. -/
theorem learn_zero_batch_fails_witness :
    learn ⟨2, [[[0]]], [[[1]]]⟩ [([[0]], [[0]])] 1 0 1 (fun _ l => l) =
      Except.error ("range() arg 3 must not be zero", ⟨2, [[[0]]], [[[1]]]⟩, [([[0]], [[0]])]) :=
  learn_zero_batch_fails ⟨2, [[[0]]], [[[1]]]⟩ [([[0]], [[0]])] 1 1 (fun _ l => l)
    (by decide) (List.cons_ne_nil _ _)

theorem learnGo_perm (m : ℕ) (eta : ℝ) (shuffle : ℕ → List Sample → List Sample)
    (hsh : ∀ j l, (shuffle j l).Perm l) :
    ∀ (e j : ℕ) (nn : Network) (data : List Sample),
      (∀ nn' d', learnGo m eta shuffle j e nn data = .ok (nn', d') → d'.Perm data) ∧
      (∀ s nn' d', learnGo m eta shuffle j e nn data = .error (s, nn', d') → d'.Perm data) := by
  intro e
  induction e with
  | zero =>
      intro j nn data
      constructor
      · intro nn' d' h
        simp only [learnGo, Except.ok.injEq, Prod.mk.injEq] at h
        rw [← h.2]
      · intro s nn' d' h
        simp [learnGo] at h
  | succ k ih =>
      intro j nn data
      by_cases hm : m = 0
      · constructor
        · intro nn' d' h
          simp [learnGo, hm] at h
        · intro s nn' d' h
          simp only [learnGo, hm, if_true, reduceIte, Except.error.injEq, Prod.mk.injEq] at h
          rw [← h.2.2]
          exact hsh j data
      · constructor
        · intro nn' d' h
          simp only [learnGo, hm, reduceIte, if_false] at h
          cases hrb : runBatches eta nn (miniBatches (shuffle j data) m) with
          | error p =>
              rw [hrb] at h
              simp at h
          | ok nn2 =>
              rw [hrb] at h
              exact ((ih (j + 1) nn2 (shuffle j data)).1 nn' d' h).trans (hsh j data)
        · intro s nn' d' h
          simp only [learnGo, hm, reduceIte, if_false] at h
          cases hrb : runBatches eta nn (miniBatches (shuffle j data) m) with
          | error p =>
              rw [hrb] at h
              simp only [Except.error.injEq, Prod.mk.injEq] at h
              rw [← h.2.2]
              exact hsh j data
          | ok nn2 =>
              rw [hrb] at h
              exact ((ih (j + 1) nn2 (shuffle j data)).2 s nn' d' h).trans (hsh j data)

/-- C9: provided the shuffle oracle always permutes its list (which
`random.shuffle` does, in place), the training list that `learn` leaves
behind, whether it returns normally or raises, is a permutation of the
caller's original list: the same samples as a multiset, none added,
removed or modified. -/
theorem learn_permutes_training_data (nn : Network) (data : List Sample)
    (epochs mbs : ℕ) (eta : ℝ) (shuffle : ℕ → List Sample → List Sample)
    (hsh : ∀ j l, (shuffle j l).Perm l) :
    (∀ nn' d', learn nn data epochs mbs eta shuffle = .ok (nn', d') → d'.Perm data) ∧
    (∀ s nn' d', learn nn data epochs mbs eta shuffle = .error (s, nn', d') → d'.Perm data) :=
  learnGo_perm mbs eta shuffle hsh epochs 0 nn data

/-- Witness for C9 with the identity shuffle oracle on a one-sample set. -/
theorem learn_permutes_training_data_witness :
    (∀ nn' d', learn ⟨2, [[[0]]], [[[1]]]⟩ [([[0]], [[0]])] 1 1 1 (fun _ l => l) = .ok (nn', d') →
      d'.Perm [([[0]], [[0]])]) ∧
    (∀ s nn' d', learn ⟨2, [[[0]]], [[[1]]]⟩ [([[0]], [[0]])] 1 1 1 (fun _ l => l) =
      .error (s, nn', d') → d'.Perm [([[0]], [[0]])]) :=
  learn_permutes_training_data ⟨2, [[[0]]], [[[1]]]⟩ [([[0]], [[0]])] 1 1 1 (fun _ l => l)
    (fun _ l => List.Perm.refl l)

theorem sigmoid_bounds (z : ℝ) : 0 < sigmoid z ∧ sigmoid z < 1 := by
  have he : 0 < Real.exp (-z) := Real.exp_pos _
  have hd : (0 : ℝ) < 1 + Real.exp (-z) := by linarith
  constructor
  · exact div_pos one_pos hd
  · rw [sigmoid, div_lt_one hd]
    linarith

theorem ff_fold_unit :
    ∀ (l : List (Mat × Mat)), l ≠ [] → ∀ (a : Mat),
      ∀ row ∈ l.foldl (fun acc bw => matMap sigmoid (matAdd (matMul bw.2 acc) bw.1)) a,
        ∀ v ∈ row, 0 < v ∧ v < 1 := by
  intro l
  induction l with
  | nil => intro h; exact absurd rfl h
  | cons p t ih =>
      intro _ a row hrow v hv
      rcases eq_or_ne t [] with ht | ht
      · subst ht
        simp only [List.foldl_cons, List.foldl_nil, matMap, List.mem_map] at hrow
        obtain ⟨r, _, hr⟩ := hrow
        rw [← hr] at hv
        simp only [List.mem_map] at hv
        obtain ⟨z, _, hz⟩ := hv
        rw [← hz]
        exact sigmoid_bounds z
      · exact ih ht _ row (by simpa using hrow) v hv

/-- C10: over exact real arithmetic, for a network with at least one
layer transition every entry of the `feedforward` output lies strictly
between 0 and 1, the final activation being a sigmoid output. -/
theorem feedforward_output_in_unit_interval (nn : Network) (a : Mat)
    (hb : nn.biases ≠ []) (hw : nn.weights ≠ []) :
    ∀ row ∈ feedforward nn a, ∀ v ∈ row, 0 < v ∧ v < 1 := by
  have hz : List.zip nn.biases nn.weights ≠ [] := by
    cases hbs : nn.biases with
    | nil => exact absurd hbs hb
    | cons b bs =>
        cases hws : nn.weights with
        | nil => exact absurd hws hw
        | cons w ws => simp
  exact ff_fold_unit (List.zip nn.biases nn.weights) hz a

/-- Witness for C10 at a one-transition network on the zero input, whose
single output entry lies strictly between 0 and 1. -/
theorem feedforward_output_in_unit_interval_witness :
    0 < sigmoid (dotL [1] [0] + 0) ∧ sigmoid (dotL [1] [0] + 0) < 1 :=
  feedforward_output_in_unit_interval ⟨2, [[[0]]], [[[1]]]⟩ [[0]]
    (List.cons_ne_nil _ _) (List.cons_ne_nil _ _)
    [sigmoid (dotL [1] [0] + 0)]
    (by
      rw [show feedforward ⟨2, [[[0]]], [[[1]]]⟩ [[0]] =
        [[sigmoid (dotL [1] [0] + 0)]] from rfl]
      exact List.mem_singleton.mpr rfl)
    (sigmoid (dotL [1] [0] + 0)) (List.mem_singleton.mpr rfl)

theorem iterLayers_cons (b : Mat) (bs : List Mat) (w : Mat) (ws : List Mat) (a : Mat) :
    ∀ k, iterLayers (b :: bs) (w :: ws) a (k + 1) =
      iterLayers bs ws (matMap sigmoid (matAdd (matMul w a) b)) k := by
  intro k
  induction k with
  | zero => rfl
  | succ n ih =>
      rw [iterLayers.eq_2, ih, iterLayers.eq_2, List.getD_cons_succ, List.getD_cons_succ]

theorem ff_iter :
    ∀ (ws bs : List Mat) (a : Mat), bs.length = ws.length →
      (List.zip bs ws).foldl (fun acc bw => matMap sigmoid (matAdd (matMul bw.2 acc) bw.1)) a =
        iterLayers bs ws a ws.length := by
  intro ws
  induction ws with
  | nil =>
      intro bs a h
      have : bs = [] := List.length_eq_zero.mp h
      subst this
      rfl
  | cons w ws ih =>
      intro bs a h
      cases bs with
      | nil => simp at h
      | cons b bs =>
          simp only [List.zip_cons_cons, List.foldl_cons, List.length_cons]
          rw [iterLayers_cons]
          exact ih bs _ (by simpa using h)

/-- C3: for a network whose bias and weight lists have equal length (the
data-model invariant), `feedforward` returns exactly the result of
iterating, transition by transition in order, `z = W a + b` followed by
`a = sigmoid(z)`, over all `L - 1` transitions; the network itself is a
pure input and is not modified. -/
theorem feedforward_iterates_layers (nn : Network) (a : Mat)
    (h : nn.biases.length = nn.weights.length) :
    feedforward nn a = iterLayers nn.biases nn.weights a nn.weights.length :=
  ff_iter nn.weights nn.biases a h

/-- Witness for C3 at a concrete one-transition network. -/
theorem feedforward_iterates_layers_witness :
    feedforward ⟨2, [[[0]]], [[[1]]]⟩ [[0]] =
      iterLayers [[[0]]] [[[1]]] [[0]] (List.length [[[1]]]) :=
  feedforward_iterates_layers ⟨2, [[[0]]], [[[1]]]⟩ [[0]] rfl

theorem evaluate_filter (nn : Network) :
    ∀ td : List (Mat × ℕ),
      evaluate nn td =
        (td.filter (fun xy => np_argmax (feedforward nn xy.1).flatten == xy.2)).length := by
  intro td
  induction td with
  | nil => rfl
  | cons p t ih =>
      simp only [evaluate, List.map_cons, List.sum_cons] at ih ⊢
      by_cases h : np_argmax (feedforward nn p.1).flatten = p.2
      · rw [List.filter_cons_of_pos (by simpa using h)]
        simp only [h, if_true, reduceIte, List.length_cons, ih]
        omega
      · rw [List.filter_cons_of_neg (by simpa using h)]
        simp only [h, if_false, reduceIte, ih]
        omega

theorem argmaxGo_spec (vs : List ℝ) :
    ∀ (pre : List ℝ) (bi : ℕ) (bv : ℝ),
      bi < pre.length → pre.getD bi 0 = bv →
      (∀ j, j < pre.length → pre.getD j 0 ≤ bv) →
      (∀ j, j < bi → pre.getD j 0 < bv) →
      isArgmaxLow (pre ++ vs) (argmaxGo bi bv pre.length vs) := by
  induction vs with
  | nil =>
      intro pre bi bv h1 h2 h3 h4
      rw [List.append_nil]
      exact ⟨h1, fun j hj => h2 ▸ h3 j hj, fun j hj => h2 ▸ h4 j hj⟩
  | cons v vs ih =>
      intro pre bi bv h1 h2 h3 h4
      have happ : pre ++ v :: vs = (pre ++ [v]) ++ vs := by simp
      have hlen : (pre ++ [v]).length = pre.length + 1 := by simp
      have hgv : (pre ++ [v]).getD pre.length 0 = v := by
        rw [List.getD_append_right pre [v] 0 pre.length le_rfl]
        simp
      have hgpre : ∀ j, j < pre.length → (pre ++ [v]).getD j 0 = pre.getD j 0 := by
        intro j hj
        exact List.getD_append pre [v] 0 j hj
      rw [happ]
      by_cases hc : bv < v
      · rw [show argmaxGo bi bv pre.length (v :: vs) = argmaxGo pre.length v (pre.length + 1) vs
          from if_pos hc]
        rw [show pre.length + 1 = (pre ++ [v]).length from hlen.symm]
        apply ih (pre ++ [v]) pre.length v (by simp) hgv
        · intro j hj
          rw [hlen] at hj
          rcases Nat.lt_or_ge j pre.length with hj2 | hj2
          · rw [hgpre j hj2]
            exact le_of_lt (lt_of_le_of_lt (h3 j hj2) hc)
          · have : j = pre.length := by omega
            rw [this, hgv]
        · intro j hj
          rw [hgpre j hj]
          exact lt_of_le_of_lt (h3 j hj) hc
      · push_neg at hc
        rw [show argmaxGo bi bv pre.length (v :: vs) = argmaxGo bi bv (pre.length + 1) vs
          from if_neg (by push_neg; exact hc)]
        rw [show pre.length + 1 = (pre ++ [v]).length from hlen.symm]
        apply ih (pre ++ [v]) bi bv (by simp; omega) (by rw [hgpre bi h1]; exact h2)
        · intro j hj
          rw [hlen] at hj
          rcases Nat.lt_or_ge j pre.length with hj2 | hj2
          · rw [hgpre j hj2]
            exact h3 j hj2
          · have : j = pre.length := by omega
            rw [this, hgv]
            exact hc
        · intro j hj
          rw [hgpre j (lt_trans hj h1)]
          exact h4 j hj

theorem np_argmax_isArgmaxLow (l : List ℝ) (h : l ≠ []) : isArgmaxLow l (np_argmax l) := by
  cases l with
  | nil => exact absurd rfl h
  | cons v vs =>
      have := argmaxGo_spec vs [v] 0 v (by simp) rfl
        (by
          intro j hj
          have : j = 0 := by simpa using hj
          simp [this])
        (by intro j hj; omega)
      simpa [np_argmax] using this

/-- C7: `evaluate` returns exactly the number of samples whose label
equals `np.argmax` of the feedforward output, and on non-empty outputs
that index is the position of the maximum entry with ties broken by the
lowest index; consequently the count is the dataset size when every
sample matches and 0 when none does. -/
theorem evaluate_counts_argmax_matches (nn : Network) (td : List (Mat × ℕ))
    (hne : ∀ xy ∈ td, (feedforward nn xy.1).flatten ≠ []) :
    evaluate nn td =
      (td.filter (fun xy => np_argmax (feedforward nn xy.1).flatten == xy.2)).length ∧
    (∀ xy ∈ td,
      isArgmaxLow (feedforward nn xy.1).flatten (np_argmax (feedforward nn xy.1).flatten)) ∧
    ((∀ xy ∈ td, np_argmax (feedforward nn xy.1).flatten = xy.2) → evaluate nn td = td.length) ∧
    ((∀ xy ∈ td, np_argmax (feedforward nn xy.1).flatten ≠ xy.2) → evaluate nn td = 0) := by
  refine ⟨evaluate_filter nn td, ?_, ?_, ?_⟩
  · intro xy hxy
    exact np_argmax_isArgmaxLow _ (hne xy hxy)
  · intro hall
    rw [evaluate_filter nn td]
    rw [List.filter_eq_self.mpr (by intro a ha; simpa using hall a ha)]
  · intro hnone
    rw [evaluate_filter nn td]
    rw [List.filter_eq_nil_iff.mpr (by intro a ha; simpa using hnone a ha)]
    rfl

/-- Witness for C7 at a one-transition network on a one-sample dataset. -/
theorem evaluate_counts_argmax_matches_witness :
    evaluate ⟨2, [[[0]]], [[[1]]]⟩ [([[0]], 0)] =
      ([([[0]], 0)].filter
        (fun xy => np_argmax (feedforward ⟨2, [[[0]]], [[[1]]]⟩ xy.1).flatten == xy.2)).length ∧
    (∀ xy ∈ [([[0]], 0)],
      isArgmaxLow (feedforward ⟨2, [[[0]]], [[[1]]]⟩ xy.1).flatten
        (np_argmax (feedforward ⟨2, [[[0]]], [[[1]]]⟩ xy.1).flatten)) ∧
    ((∀ xy ∈ [([[0]], 0)], np_argmax (feedforward ⟨2, [[[0]]], [[[1]]]⟩ xy.1).flatten = xy.2) →
      evaluate ⟨2, [[[0]]], [[[1]]]⟩ [([[0]], 0)] = [([[0]], 0)].length) ∧
    ((∀ xy ∈ [([[0]], 0)], np_argmax (feedforward ⟨2, [[[0]]], [[[1]]]⟩ xy.1).flatten ≠ xy.2) →
      evaluate ⟨2, [[[0]]], [[[1]]]⟩ [([[0]], 0)] = 0) :=
  evaluate_counts_argmax_matches ⟨2, [[[0]]], [[[1]]]⟩ [([[0]], 0)]
    (by
      intro xy hxy
      simp only [List.mem_singleton] at hxy
      subst hxy
      simp [feedforward, matMap, matAdd, matMul, transposeM, dotL])

/-! List indexing utilities. -/

theorem getD_reverse {α : Type} (l : List α) (i : ℕ) (d : α) (h : i < l.length) :
    l.reverse.getD i d = l.getD (l.length - 1 - i) d := by
  rw [List.getD_eq_getElem _ d (by simpa using h), List.getD_eq_getElem _ d (by omega)]
  exact List.getElem_reverse _

theorem getD_tail {α : Type} (l : List α) (i : ℕ) (d : α) : l.tail.getD i d = l.getD (i + 1) d := by
  cases l with
  | nil => rfl
  | cons a t => rfl

theorem getD_map {α β : Type} (f : α → β) (l : List α) (i : ℕ) (d : β) (d' : α)
    (h : i < l.length) : (l.map f).getD i d = f (l.getD i d') := by
  rw [List.getD_eq_getElem _ d (by simpa using h), List.getD_eq_getElem _ d' h]
  simp

theorem getD_zip {α β : Type} (l1 : List α) (l2 : List β) (i : ℕ) (d1 : α) (d2 : β)
    (h1 : i < l1.length) (h2 : i < l2.length) :
    (List.zip l1 l2).getD i (d1, d2) = (l1.getD i d1, l2.getD i d2) := by
  rw [List.getD_eq_getElem _ _ (by simp; omega), List.getD_eq_getElem _ d1 h1,
    List.getD_eq_getElem _ d2 h2]
  simp

theorem getD_zipWith {α β γ : Type} (f : α → β → γ) (l1 : List α) (l2 : List β) (i : ℕ)
    (d : γ) (d1 : α) (d2 : β) (h1 : i < l1.length) (h2 : i < l2.length) :
    (List.zipWith f l1 l2).getD i d = f (l1.getD i d1) (l2.getD i d2) := by
  rw [List.getD_eq_getElem _ _ (by simp; omega), List.getD_eq_getElem _ d1 h1,
    List.getD_eq_getElem _ d2 h2]
  simp

theorem getLastD_eq_getD {α : Type} (l : List α) (d : α) (h : l ≠ []) :
    l.getLastD d = l.getD (l.length - 1) d := by
  rw [List.getLastD_eq_getLast?, List.getLast?_eq_getLast l h]
  have hlt : l.length - 1 < l.length := by
    cases l with
    | nil => exact absurd rfl h
    | cons a t => simp
  rw [List.getD_eq_getElem l d hlt, List.getLast_eq_getElem]
  rfl

theorem mem_zipWith {α β γ : Type} (f : α → β → γ) :
    ∀ (l1 : List α) (l2 : List β) (c : γ), c ∈ List.zipWith f l1 l2 →
      ∃ a b, a ∈ l1 ∧ b ∈ l2 ∧ c = f a b := by
  intro l1
  induction l1 with
  | nil => intro l2 c hc; simp at hc
  | cons a t ih =>
      intro l2 c hc
      cases l2 with
      | nil => simp at hc
      | cons b s =>
          simp only [List.zipWith_cons_cons, List.mem_cons] at hc
          rcases hc with hc | hc
          · exact ⟨a, b, by simp, by simp, hc⟩
          · obtain ⟨a', b', ha, hb, he⟩ := ih s c hc
            exact ⟨a', b', by simp [ha], by simp [hb], he⟩

/-! Structural lemmas for the forward pass and the backward loop. -/

theorem forwardPass_fst_length :
    ∀ (bs ws : List Mat) (x : Batch),
      (forwardPass bs ws x).1.length = min bs.length ws.length := by
  intro bs
  induction bs with
  | nil => intro ws x; cases ws <;> simp [forwardPass]
  | cons b bs ih =>
      intro ws x
      cases ws with
      | nil => simp [forwardPass]
      | cons w ws => simp [forwardPass, ih]; omega

theorem forwardPass_snd_length :
    ∀ (bs ws : List Mat) (x : Batch),
      (forwardPass bs ws x).2.length = min bs.length ws.length := by
  intro bs
  induction bs with
  | nil => intro ws x; cases ws <;> simp [forwardPass]
  | cons b bs ih =>
      intro ws x
      cases ws with
      | nil => simp [forwardPass]
      | cons w ws => simp [forwardPass, ih]; omega

theorem backDeltas_length :
    ∀ (wzs : List (Mat × Batch)) (delta : Batch),
      (backDeltas wzs delta).length = wzs.length + 1 := by
  intro wzs
  induction wzs with
  | nil => intro delta; rfl
  | cons p rest ih =>
      intro delta
      obtain ⟨w, z⟩ := p
      simp [backDeltas, ih]

theorem backDeltas_getD_zero (wzs : List (Mat × Batch)) (delta : Batch) (d : Batch) :
    (backDeltas wzs delta).getD 0 d = delta := by
  cases wzs with
  | nil => rfl
  | cons p rest => obtain ⟨w, z⟩ := p; rfl

theorem backDeltas_getD_succ :
    ∀ (wzs : List (Mat × Batch)) (delta : Batch) (j : ℕ), j < wzs.length →
      (backDeltas wzs delta).getD (j + 1) [] =
        List.zipWith
          (fun d s => hadamard (matMul (transposeM (wzs.getD j ([], [])).1) d) s)
          ((backDeltas wzs delta).getD j [])
          ((wzs.getD j ([], [])).2.map (matMap sigmoid_prime)) := by
  intro wzs
  induction wzs with
  | nil => intro delta j hj; simp at hj
  | cons p rest ih =>
      intro delta j hj
      obtain ⟨w, z⟩ := p
      cases j with
      | zero =>
          show (backDeltas rest _).getD 0 [] = _
          rw [backDeltas_getD_zero]
          rfl
      | succ k =>
          show (backDeltas rest _).getD (k + 1) [] = _
          rw [ih _ k (by simpa using hj)]
          rfl

theorem batch_backprop_char (nn : Network) (mb : List Sample)
    (hlen : nn.biases.length = nn.weights.length) (hpos : 0 < nn.weights.length) :
    (bbDeltas nn mb).length = nn.weights.length ∧
    (bbGradients nn mb).1.length = nn.weights.length ∧
    (bbGradients nn mb).2.length = nn.weights.length ∧
    (bbDeltas nn mb).reverse.getD (nn.weights.length - 1) [] = bbDelta nn mb ∧
    (∀ i, i + 1 < nn.weights.length →
      (bbDeltas nn mb).reverse.getD i [] =
        List.zipWith (fun d s => hadamard (matMul (transposeM (nn.weights.getD (i + 1) [])) d) s)
          ((bbDeltas nn mb).reverse.getD (i + 1) [])
          (((bbZs nn mb).getD i []).map (matMap sigmoid_prime))) ∧
    (∀ i, i < nn.weights.length →
      (bbGradients nn mb).1.getD i [] = sumBatch ((bbDeltas nn mb).reverse.getD i []) ∧
      (bbGradients nn mb).2.getD i [] =
        sumBatch (List.zipWith (fun d a => matMul d (transposeM a))
          ((bbDeltas nn mb).reverse.getD i []) ((bbActs nn mb).getD i []))) := by
  have hzs : (bbZs nn mb).length = nn.weights.length := by
    unfold bbZs
    rw [forwardPass_fst_length, hlen, Nat.min_self]
  have hacts : (bbActs nn mb).length = nn.weights.length + 1 := by
    unfold bbActs
    simp [forwardPass_snd_length, hlen]
  have hwzs : (List.zip nn.weights.reverse (bbZs nn mb).reverse.tail).length
      = nn.weights.length - 1 := by
    simp [hzs]
  have hds : (bbDeltas nn mb).length = nn.weights.length := by
    unfold bbDeltas
    rw [backDeltas_length, hwzs]
    omega
  have hnb : (bbGradients nn mb).1.length = nn.weights.length := by
    simp only [bbGradients]
    simp [hds]
  have hzw : (List.zipWith
      (fun d a => sumBatch (List.zipWith (fun di ai => matMul di (transposeM ai)) d a))
      (bbDeltas nn mb) (bbActs nn mb).reverse.tail).length = nn.weights.length := by
    simp [hds, hacts]
  have hnw : (bbGradients nn mb).2.length = nn.weights.length := by
    simp only [bbGradients]
    simp only [List.length_reverse]
    exact hzw
  refine ⟨hds, hnb, hnw, ?_, ?_, ?_⟩
  · rw [getD_reverse _ _ _ (by rw [hds]; omega), hds,
      show nn.weights.length - 1 - (nn.weights.length - 1) = 0 by omega]
    unfold bbDeltas
    rw [backDeltas_getD_zero]
  · intro i hi
    have e1 : (bbDeltas nn mb).reverse.getD i [] =
        (bbDeltas nn mb).getD (nn.weights.length - 1 - i) [] := by
      rw [getD_reverse _ _ _ (by rw [hds]; omega), hds]
    have e2 : (bbDeltas nn mb).reverse.getD (i + 1) [] =
        (bbDeltas nn mb).getD (nn.weights.length - 2 - i) [] := by
      rw [getD_reverse _ _ _ (by rw [hds]; omega), hds,
        show nn.weights.length - 1 - (i + 1) = nn.weights.length - 2 - i by omega]
    rw [e1, e2]
    have hjlt : nn.weights.length - 2 - i <
        (List.zip nn.weights.reverse (bbZs nn mb).reverse.tail).length := by
      rw [hwzs]; omega
    have hstep := backDeltas_getD_succ
      (List.zip nn.weights.reverse (bbZs nn mb).reverse.tail) (bbDelta nn mb)
      (nn.weights.length - 2 - i) hjlt
    rw [show nn.weights.length - 2 - i + 1 = nn.weights.length - 1 - i by omega] at hstep
    have hz1a : ((List.zip nn.weights.reverse (bbZs nn mb).reverse.tail).getD
        (nn.weights.length - 2 - i) ([], [])).1 =
        nn.weights.reverse.getD (nn.weights.length - 2 - i) [] := by
      rw [getD_zip _ _ _ [] [] (by simp; omega) (by simp [hzs]; omega)]
    have hz1b : ((List.zip nn.weights.reverse (bbZs nn mb).reverse.tail).getD
        (nn.weights.length - 2 - i) ([], [])).2 =
        (bbZs nn mb).reverse.tail.getD (nn.weights.length - 2 - i) [] := by
      rw [getD_zip _ _ _ [] [] (by simp; omega) (by simp [hzs]; omega)]
    rw [hz1a, hz1b] at hstep
    have hz2 : nn.weights.reverse.getD (nn.weights.length - 2 - i) [] =
        nn.weights.getD (i + 1) [] := by
      rw [getD_reverse _ _ _ (by omega)]
      congr 1
      omega
    have hz3 : (bbZs nn mb).reverse.tail.getD (nn.weights.length - 2 - i) [] =
        (bbZs nn mb).getD i [] := by
      rw [getD_tail, show nn.weights.length - 2 - i + 1 = nn.weights.length - 1 - i by omega,
        getD_reverse _ _ _ (by rw [hzs]; omega), hzs,
        show nn.weights.length - 1 - (nn.weights.length - 1 - i) = i by omega]
    rw [hz2, hz3] at hstep
    unfold bbDeltas
    exact hstep
  · intro i hi
    constructor
    · simp only [bbGradients]
      rw [getD_reverse _ _ _ (by simp [hds]; omega), List.length_map, hds,
        getD_map sumBatch _ _ _ ([] : Batch) (by rw [hds]; omega),
        getD_reverse _ _ _ (by rw [hds]; omega), hds]
    · simp only [bbGradients]
      rw [getD_reverse _ _ _ (by rw [hzw]; omega), hzw,
        getD_zipWith _ _ _ _ [] [] [] (by rw [hds]; omega) (by simp [hacts]; omega),
        getD_tail,
        getD_reverse (bbActs nn mb) _ _ (by rw [hacts]; omega), hacts,
        show nn.weights.length + 1 - 1 - (nn.weights.length - 1 - i + 1) = i by omega,
        getD_reverse _ _ _ (by rw [hds]; omega), hds]

theorem matDims_of_shape (A : Mat) (r c : ℕ) (h : matShape A r c) :
    matDims A = (r, List.replicate r c) := by
  obtain ⟨h1, h2⟩ := h
  unfold matDims
  rw [h1]
  congr 1
  refine List.eq_replicate_iff.mpr ⟨by simp [h1], ?_⟩
  intro b hb
  simp only [List.mem_map] at hb
  obtain ⟨row, hrow, rfl⟩ := hb
  exact h2 row hrow

theorem unpack_ok (mb : List Sample) (s0 sL : ℕ) (hne : s0 ≠ sL)
    (hxy : ∀ p ∈ mb, matShape p.1 s0 1 ∧ matShape p.2 sL 1) (hmb : mb ≠ []) :
    unpackRaises mb = false := by
  cases mb with
  | nil => exact absurd rfl hmb
  | cons p rest =>
      have hd1 : matDims p.1 = (s0, List.replicate s0 1) :=
        matDims_of_shape _ _ _ (hxy p (by simp)).1
      have hd2 : matDims p.2 = (sL, List.replicate sL 1) :=
        matDims_of_shape _ _ _ (hxy p (by simp)).2
      have hmem : matDims p.2 ∈ mbDims (p :: rest) := by
        unfold mbDims
        simp
      have hhead : (mbDims (p :: rest)).headD (0, []) = matDims p.1 := rfl
      unfold unpackRaises
      apply List.all_eq_false.mpr
      refine ⟨matDims p.2, hmem, ?_⟩
      rw [hhead, hd1, hd2]
      simp [hne]
      exact fun hc => hne hc.symm

/-- C1 (corrected; when the input length equals the target length the
source's unpacking of the mini-batch raises `ValueError` instead of
returning gradients): for a non-empty mini-batch of column inputs of
length `s0` and column targets of a different length `sL`, over a network
whose bias and weight lists have equal positive length (the data-model
invariant), `batch_backprop` succeeds, returning one bias gradient and
one weight gradient per layer transition, and there is a family of
per-layer stacked deltas satisfying the backprop equations: the
output-layer delta is `(a_L - y) * sigmoid_prime(z_L)` elementwise, each
earlier delta is `(W_(i+1)^T delta_(i+1)) * sigmoid_prime(z_i)`
elementwise, bias gradient `i` is delta `i` summed over the batch axis,
and weight gradient `i` is the batch sum of delta `i` times the
transposed previous activation. -/
theorem batch_backprop_equations (nn : Network) (mb : List Sample) (s0 sL : ℕ)
    (hmb : mb ≠ []) (hlen : nn.biases.length = nn.weights.length)
    (hpos : 0 < nn.weights.length)
    (hxy : ∀ p ∈ mb, matShape p.1 s0 1 ∧ matShape p.2 sL 1) (hne : s0 ≠ sL) :
    batch_backprop nn mb = Except.ok (bbGradients nn mb) ∧
    (bbGradients nn mb).1.length = nn.weights.length ∧
    (bbGradients nn mb).2.length = nn.weights.length ∧
    ∃ D : List Batch, D.length = nn.weights.length ∧
      D.getD (nn.weights.length - 1) [] =
        List.zipWith hadamard
          (List.zipWith cost_derivative
            ((bbActs nn mb).getD nn.weights.length []) (mb.map Prod.snd))
          (((bbZs nn mb).getD (nn.weights.length - 1) []).map (matMap sigmoid_prime)) ∧
      (∀ i, i + 1 < nn.weights.length →
        D.getD i [] =
          List.zipWith
            (fun d s => hadamard (matMul (transposeM (nn.weights.getD (i + 1) [])) d) s)
            (D.getD (i + 1) []) (((bbZs nn mb).getD i []).map (matMap sigmoid_prime))) ∧
      ∀ i, i < nn.weights.length →
        (bbGradients nn mb).1.getD i [] = sumBatch (D.getD i []) ∧
        (bbGradients nn mb).2.getD i [] =
          sumBatch (List.zipWith (fun d a => matMul d (transposeM a))
            (D.getD i []) ((bbActs nn mb).getD i [])) := by
  have hok : batch_backprop nn mb = Except.ok (bbGradients nn mb) := by
    unfold batch_backprop
    rw [unpack_ok mb s0 sL hne hxy hmb]
    rfl
  obtain ⟨hds, hnb, hnw, hout, hrec, hgrad⟩ := batch_backprop_char nn mb hlen hpos
  have hzs : (bbZs nn mb).length = nn.weights.length := by
    unfold bbZs
    rw [forwardPass_fst_length, hlen, Nat.min_self]
  have hacts : (bbActs nn mb).length = nn.weights.length + 1 := by
    unfold bbActs
    simp [forwardPass_snd_length, hlen]
  refine ⟨hok, hnb, hnw, (bbDeltas nn mb).reverse, by simp [hds], ?_, hrec, hgrad⟩
  rw [hout]
  unfold bbDelta
  have ha : (bbActs nn mb).getLastD [] = (bbActs nn mb).getD nn.weights.length [] := by
    rw [getLastD_eq_getD _ _ (by unfold bbActs; exact List.cons_ne_nil _ _), hacts]
    congr 1
  have hz : (bbZs nn mb).getLastD [] = (bbZs nn mb).getD (nn.weights.length - 1) [] := by
    rw [getLastD_eq_getD _ _ (by
        intro hc
        rw [hc] at hzs
        simp at hzs
        omega), hzs]
  rw [ha, hz]

/-- C1 counterexample: on the square network with layer sizes `[1, 1]`
(input and target lengths equal) the mini-batch unpacking raises, so
`batch_backprop` returns an error and no gradient lists at all. -/
theorem batch_backprop_square_counterexample :
    batch_backprop ⟨2, [[[0]]], [[[1]]]⟩ [([[0]], [[0]])] =
      Except.error "not enough values to unpack (expected 2, got 1)" ∧
    ∀ nb nw, batch_backprop ⟨2, [[[0]]], [[[1]]]⟩ [([[0]], [[0]])] ≠
      Except.ok (nb, nw) := by
  have he : batch_backprop ⟨2, [[[0]]], [[[1]]]⟩ [([[0]], [[0]])] =
      Except.error "not enough values to unpack (expected 2, got 1)" := rfl
  refine ⟨he, ?_⟩
  intro nb nw h
  rw [he] at h
  exact absurd h (by simp)

/-- Witness for C1 at a concrete network of layer sizes `[1, 2]` and a
one-sample mini-batch with input length 1 and target length 2. -/
theorem batch_backprop_equations_witness :
    batch_backprop ⟨2, [[[0], [0]]], [[[1], [1]]]⟩ [([[0]], [[0], [0]])] =
      Except.ok (bbGradients ⟨2, [[[0], [0]]], [[[1], [1]]]⟩ [([[0]], [[0], [0]])]) ∧
    (bbGradients ⟨2, [[[0], [0]]], [[[1], [1]]]⟩ [([[0]], [[0], [0]])]).1.length =
      (⟨2, [[[0], [0]]], [[[1], [1]]]⟩ : Network).weights.length ∧
    (bbGradients ⟨2, [[[0], [0]]], [[[1], [1]]]⟩ [([[0]], [[0], [0]])]).2.length =
      (⟨2, [[[0], [0]]], [[[1], [1]]]⟩ : Network).weights.length ∧
    ∃ D : List Batch,
      D.length = (⟨2, [[[0], [0]]], [[[1], [1]]]⟩ : Network).weights.length ∧
      D.getD ((⟨2, [[[0], [0]]], [[[1], [1]]]⟩ : Network).weights.length - 1) [] =
        List.zipWith hadamard
          (List.zipWith cost_derivative
            ((bbActs ⟨2, [[[0], [0]]], [[[1], [1]]]⟩ [([[0]], [[0], [0]])]).getD
              (⟨2, [[[0], [0]]], [[[1], [1]]]⟩ : Network).weights.length [])
            ([([[0]], [[0], [0]])].map Prod.snd))
          (((bbZs ⟨2, [[[0], [0]]], [[[1], [1]]]⟩ [([[0]], [[0], [0]])]).getD
              ((⟨2, [[[0], [0]]], [[[1], [1]]]⟩ : Network).weights.length - 1) []).map
            (matMap sigmoid_prime)) ∧
      (∀ i, i + 1 < (⟨2, [[[0], [0]]], [[[1], [1]]]⟩ : Network).weights.length →
        D.getD i [] =
          List.zipWith
            (fun d s => hadamard
              (matMul (transposeM
                ((⟨2, [[[0], [0]]], [[[1], [1]]]⟩ : Network).weights.getD (i + 1) [])) d) s)
            (D.getD (i + 1) [])
            (((bbZs ⟨2, [[[0], [0]]], [[[1], [1]]]⟩ [([[0]], [[0], [0]])]).getD i []).map
              (matMap sigmoid_prime))) ∧
      ∀ i, i < (⟨2, [[[0], [0]]], [[[1], [1]]]⟩ : Network).weights.length →
        (bbGradients ⟨2, [[[0], [0]]], [[[1], [1]]]⟩ [([[0]], [[0], [0]])]).1.getD i [] =
          sumBatch (D.getD i []) ∧
        (bbGradients ⟨2, [[[0], [0]]], [[[1], [1]]]⟩ [([[0]], [[0], [0]])]).2.getD i [] =
          sumBatch (List.zipWith (fun d a => matMul d (transposeM a))
            (D.getD i [])
            ((bbActs ⟨2, [[[0], [0]]], [[[1], [1]]]⟩ [([[0]], [[0], [0]])]).getD i [])) :=
  batch_backprop_equations ⟨2, [[[0], [0]]], [[[1], [1]]]⟩ [([[0]], [[0], [0]])] 1 2
    (List.cons_ne_nil _ _) rfl (by simp)
    (by
      intro p hp
      simp only [List.mem_singleton] at hp
      subst hp
      exact ⟨⟨rfl, by simp⟩, ⟨rfl, by simp⟩⟩)
    (by decide)

/-- C2 (corrected; when the input length equals the target length the
update raises inside `batch_backprop` and performs no update): for a
non-empty mini-batch of size `B` with input length `s0` different from
target length `sL`, `batch_stochastic_gradient_descent` succeeds with a
network whose `num_layers` and parameter counts are unchanged and whose
every weight matrix is `W - (eta / B) * nabla_W` and every bias vector
`b - (eta / B) * nabla_b`, where the nablas are the batch-summed
gradients `batch_backprop` returns on that mini-batch; the network has no
other state. -/
theorem sgd_update_rule (nn : Network) (mb : List Sample) (eta : ℝ) (s0 sL : ℕ)
    (hmb : mb ≠ []) (hlen : nn.biases.length = nn.weights.length)
    (hpos : 0 < nn.weights.length)
    (hxy : ∀ p ∈ mb, matShape p.1 s0 1 ∧ matShape p.2 sL 1) (hne : s0 ≠ sL) :
    batch_backprop nn mb = Except.ok (bbGradients nn mb) ∧
    ∃ nn2, batch_stochastic_gradient_descent nn mb eta = Except.ok nn2 ∧
      nn2.num_layers = nn.num_layers ∧
      nn2.weights.length = nn.weights.length ∧
      nn2.biases.length = nn.biases.length ∧
      ∀ i, i < nn.weights.length →
        nn2.weights.getD i [] =
          matSub (nn.weights.getD i [])
            (matScale (eta / (mb.length : ℝ)) ((bbGradients nn mb).2.getD i [])) ∧
        nn2.biases.getD i [] =
          matSub (nn.biases.getD i [])
            (matScale (eta / (mb.length : ℝ)) ((bbGradients nn mb).1.getD i [])) := by
  have hok : batch_backprop nn mb = Except.ok (bbGradients nn mb) := by
    unfold batch_backprop
    rw [unpack_ok mb s0 sL hne hxy hmb]
    rfl
  obtain ⟨hds, hnb, hnw, hout, hrec, hgrad⟩ := batch_backprop_char nn mb hlen hpos
  refine ⟨hok,
    { num_layers := nn.num_layers
      weights := List.zipWith
        (fun w nw => matSub w (matScale (eta / (mb.length : ℝ)) nw))
        nn.weights (bbGradients nn mb).2
      biases := List.zipWith
        (fun b nb => matSub b (matScale (eta / (mb.length : ℝ)) nb))
        nn.biases (bbGradients nn mb).1 }, ?_, rfl, ?_, ?_, ?_⟩
  · simp only [batch_stochastic_gradient_descent, hok]
  · simp [hnw]
  · simp [hnb, hlen]
  · intro i hi
    constructor
    · rw [getD_zipWith _ _ _ _ [] [] [] hi (by rw [hnw]; omega)]
    · rw [getD_zipWith _ _ _ _ [] [] [] (by rw [hlen]; omega) (by rw [hnb]; omega)]

/-- C2 counterexample: on the square network with layer sizes `[1, 1]`
the exception from `batch_backprop` propagates, so the update errors and
no updated network is produced at all. -/
theorem sgd_square_counterexample :
    batch_stochastic_gradient_descent ⟨2, [[[0]]], [[[1]]]⟩ [([[0]], [[0]])] 1 =
      Except.error "not enough values to unpack (expected 2, got 1)" ∧
    ∀ nn2, batch_stochastic_gradient_descent ⟨2, [[[0]]], [[[1]]]⟩ [([[0]], [[0]])] 1 ≠
      Except.ok nn2 := by
  have he : batch_stochastic_gradient_descent ⟨2, [[[0]]], [[[1]]]⟩ [([[0]], [[0]])] 1 =
      Except.error "not enough values to unpack (expected 2, got 1)" := rfl
  refine ⟨he, ?_⟩
  intro nn2 h
  rw [he] at h
  exact absurd h (by simp)

/-- Witness for C2 at a concrete network of layer sizes `[1, 2]` and a
one-sample mini-batch with input length 1 and target length 2. -/
theorem sgd_update_rule_witness :
    batch_backprop ⟨2, [[[0], [0]]], [[[1], [1]]]⟩ [([[0]], [[0], [0]])] =
      Except.ok (bbGradients ⟨2, [[[0], [0]]], [[[1], [1]]]⟩ [([[0]], [[0], [0]])]) ∧
    ∃ nn2,
      batch_stochastic_gradient_descent ⟨2, [[[0], [0]]], [[[1], [1]]]⟩
        [([[0]], [[0], [0]])] 1 = Except.ok nn2 ∧
      nn2.num_layers = (⟨2, [[[0], [0]]], [[[1], [1]]]⟩ : Network).num_layers ∧
      nn2.weights.length = (⟨2, [[[0], [0]]], [[[1], [1]]]⟩ : Network).weights.length ∧
      nn2.biases.length = (⟨2, [[[0], [0]]], [[[1], [1]]]⟩ : Network).biases.length ∧
      ∀ i, i < (⟨2, [[[0], [0]]], [[[1], [1]]]⟩ : Network).weights.length →
        nn2.weights.getD i [] =
          matSub ((⟨2, [[[0], [0]]], [[[1], [1]]]⟩ : Network).weights.getD i [])
            (matScale (1 / (([([[0]], [[0], [0]])] : List Sample).length : ℝ))
              ((bbGradients ⟨2, [[[0], [0]]], [[[1], [1]]]⟩
                [([[0]], [[0], [0]])]).2.getD i [])) ∧
        nn2.biases.getD i [] =
          matSub ((⟨2, [[[0], [0]]], [[[1], [1]]]⟩ : Network).biases.getD i [])
            (matScale (1 / (([([[0]], [[0], [0]])] : List Sample).length : ℝ))
              ((bbGradients ⟨2, [[[0], [0]]], [[[1], [1]]]⟩
                [([[0]], [[0], [0]])]).1.getD i [])) :=
  sgd_update_rule ⟨2, [[[0], [0]]], [[[1], [1]]]⟩ [([[0]], [[0], [0]])] 1 1 2
    (List.cons_ne_nil _ _) rfl (by simp)
    (by
      intro p hp
      simp only [List.mem_singleton] at hp
      subst hp
      exact ⟨⟨rfl, by simp⟩, ⟨rfl, by simp⟩⟩)
    (by decide)

/-! Singleton mini-batch correspondence. -/

theorem forwardPass_nil_left (ws : List Mat) (x : Batch) : forwardPass [] ws x = ([], []) := by
  cases ws <;> rfl

theorem forwardPass_nil_right (bs : List Mat) (x : Batch) : forwardPass bs [] x = ([], []) := by
  cases bs <;> rfl

theorem forwardPassS_nil_left (ws : List Mat) (a : Mat) : forwardPassS [] ws a = ([], []) := by
  cases ws <;> rfl

theorem forwardPassS_nil_right (bs : List Mat) (a : Mat) : forwardPassS bs [] a = ([], []) := by
  cases bs <;> rfl

theorem getLastD_nil {α : Type} (d : α) : ([] : List α).getLastD d = d := rfl

theorem getLastD_one {α : Type} (a d : α) : ([a] : List α).getLastD d = a := rfl

theorem map_getLastD {α β : Type} (f : α → β) (l : List α) (d : β) (d' : α) (h : l ≠ []) :
    (l.map f).getLastD d = f (l.getLastD d') := by
  rw [getLastD_eq_getD _ _ (by simp [h]), getLastD_eq_getD _ _ h, List.length_map]
  exact getD_map f l _ d d'
    (by cases l with | nil => exact absurd rfl h | cons a t => simp)

theorem forwardPass_one :
    ∀ (bs ws : List Mat) (a : Mat),
      forwardPass bs ws [a] =
        ((forwardPassS bs ws a).1.map (fun z => [z]),
         (forwardPassS bs ws a).2.map (fun t => [t])) := by
  intro bs
  induction bs with
  | nil => intro ws a; rw [forwardPass_nil_left, forwardPassS_nil_left]; rfl
  | cons b bs ih =>
      intro ws a
      cases ws with
      | nil => rw [forwardPass_nil_right, forwardPassS_nil_right]; rfl
      | cons w ws =>
          simp only [forwardPass, forwardPassS, List.map_cons, List.map_nil]
          rw [ih]

theorem backDeltas_one :
    ∀ (wzs : List (Mat × Mat)) (delta : Mat),
      backDeltas (wzs.map (Prod.map id (fun z => [z]))) [delta] =
        (backDeltasS wzs delta).map (fun d => [d]) := by
  intro wzs
  induction wzs with
  | nil => intro delta; rfl
  | cons p rest ih =>
      intro wz
      obtain ⟨w, z⟩ := p
      simp only [List.map_cons, Prod.map, id, backDeltas, backDeltasS,
        List.zipWith_cons_cons, List.zipWith_nil_right, List.map_nil]
      rw [ih]

theorem map_sumBatch_one :
    ∀ l : List Mat, (l.map (fun d => ([d] : Batch))).map sumBatch = l := by
  intro l
  induction l with
  | nil => rfl
  | cons m t ih =>
      simp only [List.map_cons]
      rw [ih]
      rfl

theorem zipWith_sumBatch_one :
    ∀ (l1 l2 : List Mat),
      List.zipWith
        (fun d a => sumBatch (List.zipWith (fun di ai => matMul di (transposeM ai)) d a))
        (l1.map (fun d => ([d] : Batch))) (l2.map (fun t => ([t] : Batch))) =
      List.zipWith (fun di ai => matMul di (transposeM ai)) l1 l2 := by
  intro l1
  induction l1 with
  | nil => intro l2; rfl
  | cons m t ih =>
      intro l2
      cases l2 with
      | nil => rfl
      | cons m2 t2 =>
          simp only [List.map_cons, List.zipWith_cons_cons]
          rw [ih]
          rfl

theorem bbGradients_single (nn : Network) (x y : Mat) :
    bbGradients nn [(x, y)] = backprop nn x y := by
  obtain ⟨L, bs, ws⟩ := nn
  have hx : ([((x : Mat), (y : Mat))].map Prod.fst) = [x] := rfl
  have hy : ([((x : Mat), (y : Mat))].map Prod.snd) = [y] := rfl
  cases bs with
  | nil =>
      simp [bbGradients, bbDeltas, bbDelta, bbActs, bbZs, backprop, hx, hy,
        forwardPass_nil_left, forwardPassS_nil_left, List.zip_nil_right,
        backDeltas, backDeltasS, getLastD_nil, getLastD_one, sumBatch,
        matMap, hadamard]
  | cons b bs =>
      cases ws with
      | nil =>
          simp [bbGradients, bbDeltas, bbDelta, bbActs, bbZs, backprop, hx, hy,
            forwardPass_nil_right, forwardPassS_nil_right, List.zip_nil_right,
            List.zip_nil_left, backDeltas, backDeltasS, getLastD_nil, getLastD_one,
            sumBatch, matMap, hadamard]
      | cons w ws =>
          have hfp := forwardPass_one (b :: bs) (w :: ws) x
          have hne1 : (forwardPassS (b :: bs) (w :: ws) x).1 ≠ [] := by
            simp [forwardPassS]
          have hne2 : (x :: (forwardPassS (b :: bs) (w :: ws) x).2) ≠ [] :=
            List.cons_ne_nil _ _
          have hbz : bbZs ⟨L, b :: bs, w :: ws⟩ [(x, y)] =
              (forwardPassS (b :: bs) (w :: ws) x).1.map (fun z => [z]) := by
            unfold bbZs
            rw [hx, hfp]
          have hba : bbActs ⟨L, b :: bs, w :: ws⟩ [(x, y)] =
              (x :: (forwardPassS (b :: bs) (w :: ws) x).2).map (fun t => [t]) := by
            unfold bbActs
            rw [hx, hfp, List.map_cons]
          have hbd : bbDelta ⟨L, b :: bs, w :: ws⟩ [(x, y)] =
              [hadamard
                (cost_derivative
                  ((x :: (forwardPassS (b :: bs) (w :: ws) x).2).getLastD []) y)
                (matMap sigmoid_prime
                  ((forwardPassS (b :: bs) (w :: ws) x).1.getLastD []))] := by
            unfold bbDelta
            rw [hba, hbz, hy, map_getLastD _ _ _ [] hne2, map_getLastD _ _ _ [] hne1]
            rfl
          have hzipm : List.zip (w :: ws).reverse
              ((bbZs ⟨L, b :: bs, w :: ws⟩ [(x, y)]).reverse.tail) =
              (List.zip (w :: ws).reverse
                (forwardPassS (b :: bs) (w :: ws) x).1.reverse.tail).map
                (Prod.map id (fun z => [z])) := by
            rw [hbz, ← List.map_reverse, ← List.map_tail, List.zip_map_right]
          have hds : bbDeltas ⟨L, b :: bs, w :: ws⟩ [(x, y)] =
              (backDeltasS
                (List.zip (w :: ws).reverse
                  (forwardPassS (b :: bs) (w :: ws) x).1.reverse.tail)
                (hadamard
                  (cost_derivative
                    ((x :: (forwardPassS (b :: bs) (w :: ws) x).2).getLastD []) y)
                  (matMap sigmoid_prime
                    ((forwardPassS (b :: bs) (w :: ws) x).1.getLastD [])))).map
                (fun d => [d]) := by
            unfold bbDeltas
            rw [hbd]
            have : (⟨L, b :: bs, w :: ws⟩ : Network).weights = w :: ws := rfl
            rw [this, hzipm, backDeltas_one]
          simp only [bbGradients, backprop]
          congr 1
          · rw [hds, map_sumBatch_one]
          · rw [hds, hba, ← List.map_reverse, ← List.map_tail, zipWith_sumBatch_one]

/-- C4 (corrected; when the single sample's input and target share one
numpy shape, `np.asarray` builds a regular array whose full transpose
unpacks into one item, not two, and the source raises `ValueError`): on a
single-sample mini-batch whose input and target shapes differ,
`batch_backprop` succeeds and returns exactly the gradients of the
unbatched per-sample reference backpropagation, pair of lists equal
gradient by gradient and entry by entry (the sum over the one-element
batch axis changes nothing). -/
theorem batch_backprop_single_sample (nn : Network) (x y : Mat)
    (hne : matDims x ≠ matDims y) :
    batch_backprop nn [(x, y)] = Except.ok (backprop nn x y) := by
  have hg : unpackRaises [(x, y)] = false := by
    unfold unpackRaises
    apply List.all_eq_false.mpr
    refine ⟨matDims y, by unfold mbDims; simp, ?_⟩
    have hhead : (mbDims [(x, y)]).headD (0, []) = matDims x := rfl
    rw [hhead]
    simp
    exact fun hc => hne hc.symm
  unfold batch_backprop
  rw [hg]
  exact congrArg Except.ok (bbGradients_single nn x y)

/-- C4 counterexample: on a sample whose input and target are both `1` by
`1`, the unpack raises and `batch_backprop` does not return the reference
gradients (nor any gradients). -/
theorem single_sample_square_counterexample :
    batch_backprop ⟨2, [[[0]]], [[[1]]]⟩ [([[0]], [[0]])] ≠
      Except.ok (backprop ⟨2, [[[0]]], [[[1]]]⟩ [[0]] [[0]]) := by
  intro h
  have he : batch_backprop ⟨2, [[[0]]], [[[1]]]⟩ [([[0]], [[0]])] =
      Except.error "not enough values to unpack (expected 2, got 1)" := rfl
  rw [he] at h
  exact absurd h (by simp)

/-- Witness for C4 at a concrete sample with input length 1 and target
length 2. -/
theorem batch_backprop_single_sample_witness :
    batch_backprop ⟨2, [[[0], [0]]], [[[1], [1]]]⟩ [([[0]], [[0], [0]])] =
      Except.ok (backprop ⟨2, [[[0], [0]]], [[[1], [1]]]⟩ [[0]] [[0], [0]]) :=
  batch_backprop_single_sample ⟨2, [[[0], [0]]], [[[1], [1]]]⟩ [[0]] [[0], [0]]
    (by decide)

/-! Shape lemmas for C8. -/

theorem matShape_matMap (f : ℝ → ℝ) (A : Mat) (r c : ℕ) (h : matShape A r c) :
    matShape (matMap f A) r c := by
  obtain ⟨h1, h2⟩ := h
  refine ⟨by simp [matMap, h1], ?_⟩
  intro row hrow
  simp only [matMap, List.mem_map] at hrow
  obtain ⟨row0, hmem, rfl⟩ := hrow
  simp [h2 row0 hmem]

theorem matShape_matScale (k : ℝ) (A : Mat) (r c : ℕ) (h : matShape A r c) :
    matShape (matScale k A) r c := by
  obtain ⟨h1, h2⟩ := h
  refine ⟨by simp [matScale, h1], ?_⟩
  intro row hrow
  simp only [matScale, List.mem_map] at hrow
  obtain ⟨row0, hmem, rfl⟩ := hrow
  simp [h2 row0 hmem]

theorem matShape_zipWith (op : ℝ → ℝ → ℝ) (A B : Mat) (r c : ℕ)
    (hA : matShape A r c) (hB : matShape B r c) :
    matShape (List.zipWith (List.zipWith op) A B) r c := by
  obtain ⟨hA1, hA2⟩ := hA
  obtain ⟨hB1, hB2⟩ := hB
  refine ⟨by simp [hA1, hB1], ?_⟩
  intro row hrow
  obtain ⟨a, b, ha, hb, rfl⟩ := mem_zipWith _ A B row hrow
  simp [hA2 a ha, hB2 b hb]

theorem matShape_matAdd (A B : Mat) (r c : ℕ) (hA : matShape A r c) (hB : matShape B r c) :
    matShape (matAdd A B) r c := matShape_zipWith _ A B r c hA hB

theorem matShape_matSub (A B : Mat) (r c : ℕ) (hA : matShape A r c) (hB : matShape B r c) :
    matShape (matSub A B) r c := matShape_zipWith _ A B r c hA hB

theorem matShape_hadamard (A B : Mat) (r c : ℕ) (hA : matShape A r c) (hB : matShape B r c) :
    matShape (hadamard A B) r c := matShape_zipWith _ A B r c hA hB

theorem matShape_cost_derivative (A B : Mat) (r c : ℕ)
    (hA : matShape A r c) (hB : matShape B r c) :
    matShape (cost_derivative A B) r c := matShape_matSub A B r c hA hB

theorem matShape_transposeM (A : Mat) (r c : ℕ) (h : matShape A r c) (hr : 0 < r) :
    matShape (transposeM A) c r := by
  obtain ⟨h1, h2⟩ := h
  cases A with
  | nil => simp at h1; omega
  | cons a t =>
      have hc : a.length = c := h2 a (by simp)
      refine ⟨by simp [transposeM, hc], ?_⟩
      intro row hrow
      simp only [transposeM, List.mem_map] at hrow
      obtain ⟨j, _, rfl⟩ := hrow
      simpa using h1

theorem matShape_matMul (A B : Mat) (r k c : ℕ)
    (hA : matShape A r k) (hB : matShape B k c) (hk : 0 < k) :
    matShape (matMul A B) r c := by
  have ht := matShape_transposeM B k c hB hk
  refine ⟨by simp [matMul, hA.1], ?_⟩
  intro row hrow
  simp only [matMul, List.mem_map] at hrow
  obtain ⟨row0, _, rfl⟩ := hrow
  simp [ht.1]

theorem matShape_foldl_matAdd :
    ∀ (rest : List Mat) (acc : Mat) (r c : ℕ), matShape acc r c →
      (∀ m ∈ rest, matShape m r c) → matShape (rest.foldl matAdd acc) r c := by
  intro rest
  induction rest with
  | nil => intro acc r c hacc _; exact hacc
  | cons m t ih =>
      intro acc r c hacc hall
      exact ih _ r c (matShape_matAdd acc m r c hacc (hall m (by simp)))
        (fun m' hm' => hall m' (by simp [hm']))

theorem matShape_sumBatch (x : Batch) (r c : ℕ) (hne : x ≠ [])
    (h : ∀ m ∈ x, matShape m r c) : matShape (sumBatch x) r c := by
  cases x with
  | nil => exact absurd rfl hne
  | cons m rest =>
      exact matShape_foldl_matAdd rest m r c (h m (by simp))
        (fun m' hm' => h m' (by simp [hm']))

theorem batchShape_map (f : Mat → Mat) (x : Batch) (B r c r2 c2 : ℕ)
    (h : batchShape x B r c) (hf : ∀ m, matShape m r c → matShape (f m) r2 c2) :
    batchShape (x.map f) B r2 c2 := by
  obtain ⟨h1, h2⟩ := h
  refine ⟨by simp [h1], ?_⟩
  intro m hm
  simp only [List.mem_map] at hm
  obtain ⟨m0, hm0, rfl⟩ := hm
  exact hf m0 (h2 m0 hm0)

theorem batchShape_zipWith (f : Mat → Mat → Mat) (x y : Batch) (B r c r2 c2 r3 c3 : ℕ)
    (hx : batchShape x B r c) (hy : batchShape y B r2 c2)
    (hf : ∀ mx my, matShape mx r c → matShape my r2 c2 → matShape (f mx my) r3 c3) :
    batchShape (List.zipWith f x y) B r3 c3 := by
  obtain ⟨hx1, hx2⟩ := hx
  obtain ⟨hy1, hy2⟩ := hy
  refine ⟨by simp [hx1, hy1], ?_⟩
  intro m hm
  obtain ⟨a, b, ha, hb, rfl⟩ := mem_zipWith f x y m hm
  exact hf a b (hx2 a ha) (hy2 b hb)

theorem randnMat_shape (g : ℕ → ℕ → ℝ) (y x : ℕ) : matShape (randnMat g y x) y x := by
  refine ⟨by simp [randnMat], ?_⟩
  intro row hrow
  simp only [randnMat, List.mem_map] at hrow
  obtain ⟨i, _, rfl⟩ := hrow
  simp

theorem getD_enum_map {α β : Type} (f : ℕ × α → β) (l : List α) (i : ℕ) (d : β) (d' : α)
    (h : i < l.length) : (l.enum.map f).getD i d = f (i, l.getD i d') := by
  rw [getD_map f l.enum i d (i, d') (by simpa using h)]
  congr 1
  rw [List.getD_eq_getElem _ _ (by simpa using h), List.getElem_enum,
    List.getD_eq_getElem _ _ h]

theorem getD_drop_one (l : List ℕ) (i : ℕ) (h : i + 1 < l.length) :
    (l.drop 1).getD i 0 = l.getD (i + 1) 0 := by
  rw [List.getD_eq_getElem _ _ (by simp; omega), List.getD_eq_getElem _ _ h,
    List.getElem_drop]
  congr 1
  omega

theorem getD_dropLast (l : List ℕ) (i : ℕ) (h : i + 1 < l.length) :
    l.dropLast.getD i 0 = l.getD i 0 := by
  rw [List.getD_eq_getElem _ _ (by simp; omega), List.getD_eq_getElem _ _ (by omega),
    List.getElem_dropLast]

theorem init_network_shaped (sizes : List ℕ) (gb gw : ℕ → ℕ → ℕ → ℝ)
    (hL : 2 ≤ sizes.length) : ShapedIdx sizes (init_network sizes gb gw) := by
  refine ⟨?_, ?_, ?_⟩
  · simp [init_network]
  · simp [init_network]
  · intro i hi
    constructor
    · show matShape (((sizes.drop 1).enum.map (fun p => randnMat (gb p.1) p.2 1)).getD i [])
        (sizes.getD (i + 1) 0) 1
      rw [getD_enum_map _ _ _ _ 0 (by simp; omega), getD_drop_one sizes i hi]
      exact randnMat_shape _ _ _
    · show matShape (((List.zip sizes.dropLast (sizes.drop 1)).enum.map
          (fun p => randnMat (gw p.1) p.2.2 p.2.1)).getD i [])
        (sizes.getD (i + 1) 0) (sizes.getD i 0)
      rw [getD_enum_map _ _ _ _ (0, 0) (by simp; omega)]
      show matShape
        (randnMat (gw i) ((List.zip sizes.dropLast (sizes.drop 1)).getD i (0, 0)).2
          ((List.zip sizes.dropLast (sizes.drop 1)).getD i (0, 0)).1)
        (sizes.getD (i + 1) 0) (sizes.getD i 0)
      have hza : ((List.zip sizes.dropLast (sizes.drop 1)).getD i (0, 0)).1 =
          sizes.getD i 0 := by
        rw [getD_zip _ _ _ 0 0 (by simp; omega) (by simp; omega)]
        exact getD_dropLast sizes i hi
      have hzb : ((List.zip sizes.dropLast (sizes.drop 1)).getD i (0, 0)).2 =
          sizes.getD (i + 1) 0 := by
        rw [getD_zip _ _ _ 0 0 (by simp; omega) (by simp; omega)]
        exact getD_drop_one sizes i hi
      rw [hza, hzb]
      exact randnMat_shape _ _ _

theorem forwardPass_zs_getD :
    ∀ (bs ws : List Mat) (x : Batch) (k : ℕ), k < min bs.length ws.length →
      (forwardPass bs ws x).1.getD k [] =
        ((x :: (forwardPass bs ws x).2).getD k []).map
          (fun a => matAdd (matMul (ws.getD k []) a) (bs.getD k [])) := by
  intro bs
  induction bs with
  | nil => intro ws x k hk; simp at hk
  | cons b bs ih =>
      intro ws x k hk
      cases ws with
      | nil => simp at hk
      | cons w ws =>
          cases k with
          | zero => rfl
          | succ k2 =>
              have hk2 : k2 < min bs.length ws.length := by
                simp at hk
                omega
              show (forwardPass bs ws
                  ((x.map (fun a => matAdd (matMul w a) b)).map (matMap sigmoid))).1.getD
                    k2 [] = _
              rw [ih ws _ k2 hk2]
              rfl

theorem forwardPass_acts_getD :
    ∀ (bs ws : List Mat) (x : Batch) (k : ℕ), k < min bs.length ws.length →
      (x :: (forwardPass bs ws x).2).getD (k + 1) [] =
        ((forwardPass bs ws x).1.getD k []).map (matMap sigmoid) := by
  intro bs
  induction bs with
  | nil => intro ws x k hk; simp at hk
  | cons b bs ih =>
      intro ws x k hk
      cases ws with
      | nil => simp at hk
      | cons w ws =>
          cases k with
          | zero => rfl
          | succ k2 =>
              have hk2 : k2 < min bs.length ws.length := by
                simp at hk
                omega
              show (((x.map (fun a => matAdd (matMul w a) b)).map (matMap sigmoid)) ::
                  (forwardPass bs ws
                    ((x.map (fun a => matAdd (matMul w a) b)).map (matMap sigmoid))).2).getD
                      (k2 + 1) [] = _
              rw [ih ws _ k2 hk2]
              rfl

theorem forward_shapes (sizes : List ℕ) (bs ws : List Mat) (x : Batch) (B : ℕ)
    (hbl : bs.length = sizes.length - 1) (hwl : ws.length = sizes.length - 1)
    (hsh : ∀ i, i + 1 < sizes.length →
      matShape (bs.getD i []) (sizes.getD (i + 1) 0) 1 ∧
      matShape (ws.getD i []) (sizes.getD (i + 1) 0) (sizes.getD i 0))
    (hpos : ∀ i, i < sizes.length → 0 < sizes.getD i 0)
    (hL : 2 ≤ sizes.length)
    (hx : batchShape x B (sizes.getD 0 0) 1) :
    ∀ k, k ≤ sizes.length - 1 →
      batchShape ((x :: (forwardPass bs ws x).2).getD k []) B (sizes.getD k 0) 1 := by
  intro k
  induction k with
  | zero => intro _; exact hx
  | succ k2 ih =>
      intro hk
      have hkmin : k2 < min bs.length ws.length := by
        rw [hbl, hwl]
        omega
      rw [forwardPass_acts_getD bs ws x k2 hkmin, forwardPass_zs_getD bs ws x k2 hkmin]
      apply batchShape_map (matMap sigmoid) _ B (sizes.getD (k2 + 1) 0) 1
        (sizes.getD (k2 + 1) 0) 1
      · apply batchShape_map _ _ B (sizes.getD k2 0) 1 (sizes.getD (k2 + 1) 0) 1
          (ih (by omega))
        intro m hm
        exact matShape_matAdd _ _ _ _
          (matShape_matMul _ _ _ _ _ ((hsh k2 (by omega)).2) hm (hpos k2 (by omega)))
          ((hsh k2 (by omega)).1)
      · intro m hm
        exact matShape_matMap sigmoid m _ _ hm

theorem forward_zs_shapes (sizes : List ℕ) (bs ws : List Mat) (x : Batch) (B : ℕ)
    (hbl : bs.length = sizes.length - 1) (hwl : ws.length = sizes.length - 1)
    (hsh : ∀ i, i + 1 < sizes.length →
      matShape (bs.getD i []) (sizes.getD (i + 1) 0) 1 ∧
      matShape (ws.getD i []) (sizes.getD (i + 1) 0) (sizes.getD i 0))
    (hpos : ∀ i, i < sizes.length → 0 < sizes.getD i 0)
    (hL : 2 ≤ sizes.length)
    (hx : batchShape x B (sizes.getD 0 0) 1) :
    ∀ k, k + 1 ≤ sizes.length - 1 →
      batchShape ((forwardPass bs ws x).1.getD k []) B (sizes.getD (k + 1) 0) 1 := by
  intro k hk
  have hkmin : k < min bs.length ws.length := by
    rw [hbl, hwl]
    omega
  rw [forwardPass_zs_getD bs ws x k hkmin]
  apply batchShape_map _ _ B (sizes.getD k 0) 1 (sizes.getD (k + 1) 0) 1
    (forward_shapes sizes bs ws x B hbl hwl hsh hpos hL hx k (by omega))
  intro m hm
  exact matShape_matAdd _ _ _ _
    (matShape_matMul _ _ _ _ _ ((hsh k (by omega)).2) hm (hpos k (by omega)))
    ((hsh k (by omega)).1)

theorem bb_delta_shapes (sizes : List ℕ) (nn : Network) (mb : List Sample)
    (hshp : ShapedIdx sizes nn) (hL : 2 ≤ sizes.length)
    (hpos : ∀ i, i < sizes.length → 0 < sizes.getD i 0)
    (hxy : ∀ p ∈ mb, matShape p.1 (sizes.getD 0 0) 1 ∧
      matShape p.2 (sizes.getD (sizes.length - 1) 0) 1) :
    ∀ t, t ≤ nn.weights.length - 1 →
      batchShape ((bbDeltas nn mb).reverse.getD (nn.weights.length - 1 - t) [])
        mb.length (sizes.getD (nn.weights.length - t) 0) 1 := by
  obtain ⟨hbl, hwl, hshapes⟩ := hshp
  have hlen : nn.biases.length = nn.weights.length := by omega
  have hwpos : 0 < nn.weights.length := by omega
  obtain ⟨hds, hnb, hnw, hout, hrec, hgrad⟩ := batch_backprop_char nn mb hlen hwpos
  have hxs : batchShape (mb.map Prod.fst) mb.length (sizes.getD 0 0) 1 := by
    refine ⟨by simp, ?_⟩
    intro m hm
    simp only [List.mem_map] at hm
    obtain ⟨p, hp, rfl⟩ := hm
    exact (hxy p hp).1
  have hys : batchShape (mb.map Prod.snd) mb.length (sizes.getD (sizes.length - 1) 0) 1 := by
    refine ⟨by simp, ?_⟩
    intro m hm
    simp only [List.mem_map] at hm
    obtain ⟨p, hp, rfl⟩ := hm
    exact (hxy p hp).2
  have hacts : ∀ k, k ≤ sizes.length - 1 →
      batchShape ((bbActs nn mb).getD k []) mb.length (sizes.getD k 0) 1 := by
    intro k hk
    exact forward_shapes sizes nn.biases nn.weights (mb.map Prod.fst) mb.length
      hbl hwl hshapes hpos hL hxs k hk
  have hzsh : ∀ k, k + 1 ≤ sizes.length - 1 →
      batchShape ((bbZs nn mb).getD k []) mb.length (sizes.getD (k + 1) 0) 1 := by
    intro k hk
    exact forward_zs_shapes sizes nn.biases nn.weights (mb.map Prod.fst) mb.length
      hbl hwl hshapes hpos hL hxs k hk
  have hzlen : (bbZs nn mb).length = nn.weights.length := by
    unfold bbZs
    rw [forwardPass_fst_length, hlen, Nat.min_self]
  have halen : (bbActs nn mb).length = nn.weights.length + 1 := by
    unfold bbActs
    simp [forwardPass_snd_length, hlen]
  intro t
  induction t with
  | zero =>
      intro _
      simp only [Nat.sub_zero]
      rw [hout]
      unfold bbDelta
      have ha0 : (bbActs nn mb).getLastD [] =
          (bbActs nn mb).getD nn.weights.length [] := by
        rw [getLastD_eq_getD _ _ (by unfold bbActs; exact List.cons_ne_nil _ _), halen]
        congr 1
      have hz0 : (bbZs nn mb).getLastD [] =
          (bbZs nn mb).getD (nn.weights.length - 1) [] := by
        rw [getLastD_eq_getD _ _ (by
            intro hc
            rw [hc] at hzlen
            simp at hzlen
            omega), hzlen]
      rw [ha0, hz0]
      apply batchShape_zipWith _ _ _ mb.length
        (sizes.getD nn.weights.length 0) 1 (sizes.getD nn.weights.length 0) 1
        (sizes.getD nn.weights.length 0) 1
      · apply batchShape_zipWith _ _ _ mb.length
          (sizes.getD nn.weights.length 0) 1 (sizes.getD nn.weights.length 0) 1
          (sizes.getD nn.weights.length 0) 1
        · exact hacts nn.weights.length (by omega)
        · rw [show nn.weights.length = sizes.length - 1 from hwl]
          exact hys
        · intro mx my h1 h2
          exact matShape_cost_derivative mx my _ _ h1 h2
      · apply batchShape_map _ _ mb.length (sizes.getD nn.weights.length 0) 1
          (sizes.getD nn.weights.length 0) 1
          (by
            rw [show nn.weights.length = nn.weights.length - 1 + 1 by omega]
            exact hzsh (nn.weights.length - 1) (by omega))
        intro m hm
        exact matShape_matMap sigmoid_prime m _ _ hm
      · intro mx my h1 h2
        exact matShape_hadamard mx my _ _ h1 h2
  | succ t2 iht =>
      intro ht
      rw [show nn.weights.length - 1 - (t2 + 1) = nn.weights.length - 2 - t2 by omega]
      rw [hrec (nn.weights.length - 2 - t2) (by omega)]
      have hidx : nn.weights.length - 2 - t2 + 1 = nn.weights.length - 1 - t2 := by omega
      rw [hidx]
      have hd1 := iht (by omega)
      have hW := (hshapes (nn.weights.length - 1 - t2) (by omega)).2
      rw [show nn.weights.length - 1 - t2 + 1 = nn.weights.length - t2 by omega] at hW
      have hWT := matShape_transposeM _ _ _ hW
        (hpos (nn.weights.length - t2) (by omega))
      apply batchShape_zipWith _ _ _ mb.length
        (sizes.getD (nn.weights.length - t2) 0) 1
        (sizes.getD (nn.weights.length - 1 - t2) 0) 1
        (sizes.getD (nn.weights.length - (t2 + 1)) 0) 1
      · exact hd1
      · apply batchShape_map _ _ mb.length (sizes.getD (nn.weights.length - 1 - t2) 0) 1
          (sizes.getD (nn.weights.length - 1 - t2) 0) 1
          (by
            rw [show nn.weights.length - 1 - t2 =
              nn.weights.length - 2 - t2 + 1 by omega]
            exact hzsh (nn.weights.length - 2 - t2) (by omega))
        intro m hm
        exact matShape_matMap sigmoid_prime m _ _ hm
      · intro mx my h1 h2
        rw [show nn.weights.length - (t2 + 1) = nn.weights.length - 1 - t2 by omega]
        exact matShape_hadamard _ my _ _
          (matShape_matMul _ _ _ _ _ hWT h1 (hpos (nn.weights.length - t2) (by omega)))
          h2

theorem bb_grad_shapes (sizes : List ℕ) (nn : Network) (mb : List Sample)
    (hshp : ShapedIdx sizes nn) (hL : 2 ≤ sizes.length)
    (hpos : ∀ i, i < sizes.length → 0 < sizes.getD i 0) (hmb : mb ≠ [])
    (hxy : ∀ p ∈ mb, matShape p.1 (sizes.getD 0 0) 1 ∧
      matShape p.2 (sizes.getD (sizes.length - 1) 0) 1) :
    ∀ i, i + 1 < sizes.length →
      matShape ((bbGradients nn mb).1.getD i []) (sizes.getD (i + 1) 0) 1 ∧
      matShape ((bbGradients nn mb).2.getD i [])
        (sizes.getD (i + 1) 0) (sizes.getD i 0) := by
  have hshp2 := hshp
  obtain ⟨hbl, hwl, hshapes⟩ := hshp2
  have hlen : nn.biases.length = nn.weights.length := by omega
  have hwpos : 0 < nn.weights.length := by omega
  obtain ⟨hds, hnb, hnw, hout, hrec, hgrad⟩ := batch_backprop_char nn mb hlen hwpos
  have hxs : batchShape (mb.map Prod.fst) mb.length (sizes.getD 0 0) 1 := by
    refine ⟨by simp, ?_⟩
    intro m hm
    simp only [List.mem_map] at hm
    obtain ⟨p, hp, rfl⟩ := hm
    exact (hxy p hp).1
  have hacts : ∀ k, k ≤ sizes.length - 1 →
      batchShape ((bbActs nn mb).getD k []) mb.length (sizes.getD k 0) 1 := by
    intro k hk
    exact forward_shapes sizes nn.biases nn.weights (mb.map Prod.fst) mb.length
      hbl hwl hshapes hpos hL hxs k hk
  have hBpos : 0 < mb.length := List.length_pos.mpr hmb
  intro i hi
  have hi2 : i < nn.weights.length := by omega
  have hD : batchShape ((bbDeltas nn mb).reverse.getD i [])
      mb.length (sizes.getD (i + 1) 0) 1 := by
    have hdd := bb_delta_shapes sizes nn mb hshp hL hpos hxy
      (nn.weights.length - 1 - i) (by omega)
    rw [show nn.weights.length - 1 - (nn.weights.length - 1 - i) = i by omega,
      show nn.weights.length - (nn.weights.length - 1 - i) = i + 1 by omega] at hdd
    exact hdd
  constructor
  · rw [(hgrad i hi2).1]
    apply matShape_sumBatch _ _ _ ?_ hD.2
    intro hc
    have hc1 := hD.1
    rw [hc] at hc1
    simp at hc1
    omega
  · rw [(hgrad i hi2).2]
    have hz : batchShape
        (List.zipWith (fun d a => matMul d (transposeM a))
          ((bbDeltas nn mb).reverse.getD i []) ((bbActs nn mb).getD i []))
        mb.length (sizes.getD (i + 1) 0) (sizes.getD i 0) := by
      apply batchShape_zipWith _ _ _ mb.length (sizes.getD (i + 1) 0) 1
        (sizes.getD i 0) 1 (sizes.getD (i + 1) 0) (sizes.getD i 0) hD
        (hacts i (by omega))
      intro mx my h1 h2
      exact matShape_matMul _ _ _ _ _ h1
        (matShape_transposeM _ _ _ h2 (hpos i (by omega))) (by omega)
    apply matShape_sumBatch _ _ _ ?_ hz.2
    intro hc
    have hc1 := hz.1
    rw [hc] at hc1
    simp at hc1
    omega

theorem sgd_preserves_shaped (sizes : List ℕ) (nn : Network) (mb : List Sample) (eta : ℝ)
    (hshp : ShapedIdx sizes nn) (hL : 2 ≤ sizes.length)
    (hpos : ∀ i, i < sizes.length → 0 < sizes.getD i 0) (hmb : mb ≠ [])
    (hxy : ∀ p ∈ mb, matShape p.1 (sizes.getD 0 0) 1 ∧
      matShape p.2 (sizes.getD (sizes.length - 1) 0) 1)
    (hneq : sizes.getD 0 0 ≠ sizes.getD (sizes.length - 1) 0) :
    ∃ nn2, batch_stochastic_gradient_descent nn mb eta = Except.ok nn2 ∧
      ShapedIdx sizes nn2 := by
  have hok : batch_backprop nn mb = Except.ok (bbGradients nn mb) := by
    unfold batch_backprop
    rw [unpack_ok mb (sizes.getD 0 0) (sizes.getD (sizes.length - 1) 0) hneq hxy hmb]
    rfl
  have hgr := bb_grad_shapes sizes nn mb hshp hL hpos hmb hxy
  obtain ⟨hbl, hwl, hshapes⟩ := hshp
  have hlen : nn.biases.length = nn.weights.length := by omega
  have hwpos : 0 < nn.weights.length := by omega
  obtain ⟨hds, hnb, hnw, hout, hrec, hgrad⟩ := batch_backprop_char nn mb hlen hwpos
  refine ⟨{ num_layers := nn.num_layers
            weights := List.zipWith
              (fun w nw => matSub w (matScale (eta / (mb.length : ℝ)) nw))
              nn.weights (bbGradients nn mb).2
            biases := List.zipWith
              (fun b nb => matSub b (matScale (eta / (mb.length : ℝ)) nb))
              nn.biases (bbGradients nn mb).1 },
    by simp only [batch_stochastic_gradient_descent, hok], ?_, ?_, ?_⟩
  · show (List.zipWith _ nn.biases (bbGradients nn mb).1).length = sizes.length - 1
    rw [List.length_zipWith, hnb, hbl]
    omega
  · show (List.zipWith _ nn.weights (bbGradients nn mb).2).length = sizes.length - 1
    rw [List.length_zipWith, hnw, hwl]
    omega
  · intro i hi
    constructor
    · show matShape ((List.zipWith
          (fun b nb => matSub b (matScale (eta / (mb.length : ℝ)) nb))
          nn.biases (bbGradients nn mb).1).getD i []) (sizes.getD (i + 1) 0) 1
      rw [getD_zipWith _ _ _ _ [] [] [] (by omega) (by omega)]
      exact matShape_matSub _ _ _ _ ((hshapes i hi).1)
        (matShape_matScale _ _ _ _ ((hgr i hi).1))
    · show matShape ((List.zipWith
          (fun w nw => matSub w (matScale (eta / (mb.length : ℝ)) nw))
          nn.weights (bbGradients nn mb).2).getD i [])
        (sizes.getD (i + 1) 0) (sizes.getD i 0)
      rw [getD_zipWith _ _ _ _ [] [] [] (by omega) (by omega)]
      exact matShape_matSub _ _ _ _ ((hshapes i hi).2)
        (matShape_matScale _ _ _ _ ((hgr i hi).2))

/-- C8 (corrected; when `sizes[0] = sizes[L-1]` the source's
`batch_backprop` raises `ValueError` at the mini-batch unpack before
producing any gradients, so no update happens there): for every
layer-size list of length at least 2 with positive entries,
`init_network` builds exactly `L - 1` weight matrices and `L - 1` bias
vectors with the `i`-th shapes `(sizes[i+1], sizes[i])` and
`(sizes[i+1], 1)`; and, when additionally `sizes[0]` differs from
`sizes[L-1]`, for every network satisfying this invariant the gradients
`batch_backprop` returns on a well-shaped non-empty mini-batch have
exactly the matching shapes, so every SGD update succeeds and preserves
the counts and shapes, and the invariant holds at all times during
training. -/
theorem shapes_invariant (sizes : List ℕ) (gb gw : ℕ → ℕ → ℕ → ℝ)
    (hL : 2 ≤ sizes.length) (hposmem : ∀ s ∈ sizes, 0 < s) :
    ShapedIdx sizes (init_network sizes gb gw) ∧
    (sizes.getD 0 0 ≠ sizes.getD (sizes.length - 1) 0 →
      ∀ (nn : Network) (mb : List Sample) (eta : ℝ), ShapedIdx sizes nn → mb ≠ [] →
        (∀ p ∈ mb, matShape p.1 (sizes.getD 0 0) 1 ∧
          matShape p.2 (sizes.getD (sizes.length - 1) 0) 1) →
        (∀ i, i + 1 < sizes.length →
          matShape ((bbGradients nn mb).1.getD i []) (sizes.getD (i + 1) 0) 1 ∧
          matShape ((bbGradients nn mb).2.getD i [])
            (sizes.getD (i + 1) 0) (sizes.getD i 0)) ∧
        batch_backprop nn mb = Except.ok (bbGradients nn mb) ∧
        ∃ nn2, batch_stochastic_gradient_descent nn mb eta = Except.ok nn2 ∧
          ShapedIdx sizes nn2) := by
  have hpos : ∀ i, i < sizes.length → 0 < sizes.getD i 0 := by
    intro i hi
    rw [List.getD_eq_getElem _ _ hi]
    exact hposmem _ (List.getElem_mem _)
  refine ⟨init_network_shaped sizes gb gw hL, ?_⟩
  intro hneq nn mb eta hshp hmb hxy
  refine ⟨bb_grad_shapes sizes nn mb hshp hL hpos hmb hxy, ?_,
    sgd_preserves_shaped sizes nn mb eta hshp hL hpos hmb hxy hneq⟩
  unfold batch_backprop
  rw [unpack_ok mb (sizes.getD 0 0) (sizes.getD (sizes.length - 1) 0) hneq hxy hmb]
  rfl

/-- C8 counterexample: the square layer-size list `[1, 1]` satisfies the
claim's scope and the concrete network below its invariant, yet the SGD
update raises inside `batch_backprop` instead of subtracting
matching-shape gradients. -/
theorem shapes_square_counterexample :
    ShapedIdx [1, 1] ⟨2, [[[0]]], [[[1]]]⟩ ∧
    batch_stochastic_gradient_descent ⟨2, [[[0]]], [[[1]]]⟩ [([[0]], [[0]])] 1 =
      Except.error "not enough values to unpack (expected 2, got 1)" := by
  constructor
  · refine ⟨rfl, rfl, ?_⟩
    intro i hi
    have hi0 : i = 0 := by
      simp at hi
      omega
    subst hi0
    constructor
    · refine ⟨rfl, ?_⟩
      intro row h
      simp at h
      subst h
      rfl
    · refine ⟨rfl, ?_⟩
      intro row h
      simp at h
      subst h
      rfl
  · rfl

/-- Witness for C8 at the size list `[1, 2]` (distinct input and output
lengths) with the zero initializer. -/
theorem shapes_invariant_witness :
    ShapedIdx [1, 2] (init_network [1, 2] (fun _ _ _ => 0) (fun _ _ _ => 0)) ∧
    ([1, 2].getD 0 0 ≠ [1, 2].getD ([1, 2].length - 1) 0 →
      ∀ (nn : Network) (mb : List Sample) (eta : ℝ), ShapedIdx [1, 2] nn → mb ≠ [] →
        (∀ p ∈ mb, matShape p.1 ([1, 2].getD 0 0) 1 ∧
          matShape p.2 ([1, 2].getD ([1, 2].length - 1) 0) 1) →
        (∀ i, i + 1 < [1, 2].length →
          matShape ((bbGradients nn mb).1.getD i []) ([1, 2].getD (i + 1) 0) 1 ∧
          matShape ((bbGradients nn mb).2.getD i [])
            ([1, 2].getD (i + 1) 0) ([1, 2].getD i 0)) ∧
        batch_backprop nn mb = Except.ok (bbGradients nn mb) ∧
        ∃ nn2, batch_stochastic_gradient_descent nn mb eta = Except.ok nn2 ∧
          ShapedIdx [1, 2] nn2) :=
  shapes_invariant [1, 2] (fun _ _ _ => 0) (fun _ _ _ => 0)
    (by decide) (by decide)

end

end SNN
